import Mathlib

/-!
Verification of the two algorithmic cores of the paper-reading /
mind-map repository:

* tree reconstruction from an untrusted flat node list
  (`buildTreeFromFlatList`, two variants:
  `src/services/geminiService.ts` which adopts the first parentless
  node as root, and `src/unnamed/part_001` which always synthesizes
  a root), and
* the block layout engine (`calculateSubtreeSize` / `assignPositions`
  in `src/components/MindMapGraph.tsx`, top-down, widths along x;
  `calculateSubtreeHeight` / `assignPositions` in the left-to-right
  variant embedded in `src/components/OutlineView.tsx`, heights
  along y).

JavaScript dynamic values relevant to reconstruction (string / number /
null / undefined) are modelled by `JVal`; the insertion-ordered JS
`Map` is modelled by an association list (`mapSet` keeps the original
insertion position on overwrite, exactly like `Map.set`).  The layout
passes, which mutate `width` / `height` scratch fields in place, are
modelled functionally: the metric pass returns the annotated tree
together with the computed footprint.
-/

/-- The subset of JavaScript values that can occur in the raw node
records handed to the tree reconstructors. -/
inductive JVal where
  | jnull
  | jundef
  | jstr (s : String)
  | jnum (n : Int)
deriving DecidableEq, Repr

/-- JavaScript truthiness of a `JVal` (`null`, `undefined`, `""` and
`0` are falsy). -/
def jsTruthy : JVal → Bool
  | JVal.jnull => false
  | JVal.jundef => false
  | JVal.jstr s => !(s == "")
  | JVal.jnum n => !(n == 0)

/-- The JavaScript `String(...)` coercion on the modelled values. -/
def jsToString : JVal → String
  | JVal.jnull => "null"
  | JVal.jundef => "undefined"
  | JVal.jstr s => s
  | JVal.jnum n => toString n

/-- JavaScript `a || b`. -/
def jsOr (a b : JVal) : JVal :=
  if jsTruthy a then a else b

/-- An untrusted raw node record as produced by the external generator
(fields that are absent in the JSON are modelled as `jundef`). -/
structure RawRecord where
  id : JVal
  parentId : JVal
  label : JVal
  summary : JVal
  quote : JVal
  pageNumber : JVal
deriving DecidableEq, Repr

/-- The per-node data stored in the reconstruction `Map` (the
`children` arrays are tracked separately as parent/child links, since
the JS code mutates shared node objects). -/
structure NodeRec where
  id : JVal
  label : JVal
  summary : JVal
  quote : JVal
  pageNumber : Int
deriving DecidableEq, Repr

/-- JS `Map.set`: overwrite in place if the key is present (keeping
its original insertion position), else append. -/
def mapSet [DecidableEq κ] (m : List (κ × β)) (k : κ) (v : β) : List (κ × β) :=
  if m.any (fun e => e.1 == k) then
    m.map (fun e => if e.1 == k then (k, v) else e)
  else
    m ++ [(k, v)]

/-- JS `Map.get`. -/
def mapGet [DecidableEq κ] (m : List (κ × β)) (k : κ) : Option β :=
  (m.find? (fun e => e.1 == k)).map (fun e => e.2)

/-- JS `Map.has`. -/
def mapHas [DecidableEq κ] (m : List (κ × β)) (k : κ) : Bool :=
  m.any (fun e => e.1 == k)

/-- The keys of the modelled map, in insertion order. -/
def mapKeys (m : List (κ × β)) : List κ :=
  m.map (fun e => e.1)

theorem replaceEntry_fst [DecidableEq κ] (k k' : κ) (v : β) (e : κ × β) :
    ((if e.1 == k then (k, v) else e).1 == k') = (e.1 == k') := by
  by_cases he : e.1 = k
  · simp [he]
  · simp [he]

theorem find?_mapSet_overwrite [DecidableEq κ] (m : List (κ × β)) (k k' : κ) (v : β) :
    List.find? (fun e => e.1 == k') (m.map (fun e => if e.1 == k then (k, v) else e))
      = (List.find? (fun e => e.1 == k') m).map (fun e => if e.1 == k then (k, v) else e) := by
  rw [List.find?_map]
  have hp : ((fun e => e.1 == k') ∘ fun (e : κ × β) => if e.1 == k then (k, v) else e)
      = (fun e => e.1 == k') := by
    funext e
    exact replaceEntry_fst k k' v e
  rw [hp]

theorem mapGet_set_self [DecidableEq κ] (m : List (κ × β)) (k : κ) (v : β) :
    mapGet (mapSet m k v) k = some v := by
  unfold mapSet mapGet
  cases h : m.any (fun e => e.1 == k) with
  | true =>
    rw [if_pos rfl, find?_mapSet_overwrite]
    have hsome : (List.find? (fun (e : κ × β) => e.1 == k) m).isSome = true := by
      rw [List.find?_isSome]
      rcases List.any_eq_true.mp h with ⟨e, he, hk⟩
      exact ⟨e, he, hk⟩
    rcases Option.isSome_iff_exists.mp hsome with ⟨e, he⟩
    have hk := List.find?_some he
    simp only [beq_iff_eq] at hk
    rw [he]
    simp [hk]
  | false =>
    rw [if_neg (by simp), List.find?_append]
    have hnone : List.find? (fun (e : κ × β) => e.1 == k) m = none := by
      rw [List.find?_eq_none]
      intro x hx
      rw [List.any_eq_false] at h
      exact h x hx
    simp [hnone, List.find?]

theorem mapGet_set_ne [DecidableEq κ] (m : List (κ × β)) (k k' : κ) (v : β)
    (hne : k' ≠ k) : mapGet (mapSet m k v) k' = mapGet m k' := by
  unfold mapSet mapGet
  cases h : m.any (fun e => e.1 == k) with
  | true =>
    rw [if_pos rfl, find?_mapSet_overwrite]
    cases hf : List.find? (fun (e : κ × β) => e.1 == k') m with
    | none => simp
    | some e =>
      have hk := List.find?_some hf
      simp only [beq_iff_eq] at hk
      have : ¬ e.1 = k := by
        intro hc
        exact hne (by rw [← hk, hc])
      simp [this]
  | false =>
    rw [if_neg (by simp), List.find?_append]
    have : List.find? (fun (e : κ × β) => e.1 == k') [(k, v)] = none := by
      have hkk : ¬ (k == k') = true := by
        simp only [beq_iff_eq]
        exact fun hh => hne hh.symm
      simp [List.find?, hkk]
    rw [this]
    simp

theorem mapSet_ne_nil [DecidableEq κ] (m : List (κ × β)) (k : κ) (v : β) :
    mapSet m k v ≠ [] := by
  unfold mapSet
  split
  · rename_i h
    cases m with
    | nil => simp at h
    | cons e m => simp
  · simp

theorem mapKeys_set_of_has [DecidableEq κ] (m : List (κ × β)) (k : κ) (v : β)
    (h : m.any (fun e => e.1 == k) = true) :
    mapKeys (mapSet m k v) = mapKeys m := by
  unfold mapSet mapKeys
  rw [if_pos h, List.map_map]
  congr 1
  funext e
  by_cases he : e.1 = k
  · simp [he]
  · simp [he]

theorem mem_mapKeys_mapSet [DecidableEq κ] (m : List (κ × β)) (k x : κ) (v : β) :
    x ∈ mapKeys (mapSet m k v) ↔ x ∈ mapKeys m ∨ x = k := by
  by_cases h : m.any (fun e => e.1 == k)
  · rw [mapKeys_set_of_has m k v h]
    rcases List.any_eq_true.mp h with ⟨e, he, hk⟩
    have hkm : k ∈ mapKeys m := by
      unfold mapKeys
      exact List.mem_map.mpr ⟨e, he, (beq_iff_eq).mp hk⟩
    constructor
    · exact fun hx => Or.inl hx
    · rintro (hx | hx)
      · exact hx
      · exact hx ▸ hkm
  · unfold mapSet mapKeys
    rw [if_neg (by simp [h])]
    simp [mapKeys]

theorem mapHas_iff_mem_keys [DecidableEq κ] (m : List (κ × β)) (k : κ) :
    mapHas m k = true ↔ k ∈ mapKeys m := by
  unfold mapHas mapKeys
  simp only [List.any_eq_true, List.mem_map, beq_iff_eq]

theorem mapGet_isSome_of_has [DecidableEq κ] (m : List (κ × β)) (k : κ)
    (h : mapHas m k = true) : ∃ v, mapGet m k = some v := by
  unfold mapHas at h
  unfold mapGet
  rcases List.any_eq_true.mp h with ⟨e, he, hk⟩
  have hs : (List.find? (fun (e : _ × _) => e.1 == k) m).isSome = true :=
    List.find?_isSome.mpr ⟨e, he, hk⟩
  rcases Option.isSome_iff_exists.mp hs with ⟨w, hw⟩
  exact ⟨w.2, by simp [hw]⟩

theorem mapGet_none_of_not_has [DecidableEq κ] (m : List (κ × β)) (k : κ)
    (h : mapHas m k = false) : mapGet m k = none := by
  unfold mapHas at h
  unfold mapGet
  have : List.find? (fun e => e.1 == k) m = none := by
    rw [List.find?_eq_none]
    intro e he
    intro hc
    rw [List.any_eq_false] at h
    exact h e he hc
  simp [this]

namespace GeminiService

/-- The node instance created in pass 1 of `buildTreeFromFlatList`
(`src/services/geminiService.ts`, lines 104-113).  Note that `raw.id`
is stored (and used as the `Map` key) without any string coercion. -/
def mkNode (r : RawRecord) : NodeRec :=
  { id := r.id
    label := jsOr r.label (JVal.jstr "Untitled")
    summary := jsOr r.summary (JVal.jstr "")
    quote := jsOr r.quote (JVal.jstr "")
    pageNumber := match r.pageNumber with
      | JVal.jnum n => n
      | _ => 1 }

/-- Pass 1: `flatNodes.forEach(raw => nodeMap.set(raw.id, {...}))`. -/
def nodeMapOf (l : List RawRecord) : List (JVal × NodeRec) :=
  l.foldl (fun m r => mapSet m r.id (mkNode r)) []

/-- The parent-id normalization of pass 2 (line 120):
`(raw.parentId === "null" || raw.parentId === "") ? null : raw.parentId`. -/
def normParent (p : JVal) : JVal :=
  if p = JVal.jstr "null" ∨ p = JVal.jstr "" then JVal.jnull else p

/-- One iteration of the linking loop (lines 116-132).  The loop
maintains two independent accumulators: the pushes into the shared
node objects' `children` arrays (modelled as a list of
(parent key, child key) links in push order) and the `root` variable. -/
def linkAndRootStep (m : List (JVal × NodeRec))
    (st : List (JVal × JVal) × Option JVal) (r : RawRecord) :
    List (JVal × JVal) × Option JVal :=
  match mapGet m r.id with
  | none => st
  | some _ =>
    let pId := normParent r.parentId
    if jsTruthy pId then
      match mapGet m pId with
      | some _ => (st.1 ++ [(pId, r.id)], st.2)
      | none => st
    else
      match st.2 with
      | none => (st.1, some r.id)
      | some _ => st

/-- Pass 2 of `buildTreeFromFlatList` over the whole record list. -/
def linkPass (m : List (JVal × NodeRec)) (l : List RawRecord) :
    List (JVal × JVal) × Option JVal :=
  l.foldl (linkAndRootStep m) ([], none)

/-- The reconstruction result: the node map, the parent/child links
(the mutated `children` arrays), and the key of the designated root
node. -/
structure BuildResult where
  nodes : List (JVal × NodeRec)
  links : List (JVal × JVal)
  root : JVal
deriving DecidableEq, Repr

/-- `buildTreeFromFlatList` (`src/services/geminiService.ts`,
lines 99-145): create all node instances, link children to parents,
adopt the first parentless node as root, fall back to the first node
in insertion order, and throw only when the map is empty. -/
def buildTreeFromFlatList (l : List RawRecord) : Except String BuildResult :=
  let m := nodeMapOf l
  let st := linkPass m l
  match st.2 with
  | some rk => .ok ⟨m, st.1, rk⟩
  | none =>
    match m with
    | [] => .error "The mind map returned by AI was empty."
    | (k, _) :: _ => .ok ⟨m, st.1, k⟩

/-- The link (if any) contributed by one record: derived form of the
link half of `linkAndRootStep`, used to reason about the loop. -/
def linkOf (m : List (JVal × NodeRec)) (r : RawRecord) : List (JVal × JVal) :=
  match mapGet m r.id with
  | none => []
  | some _ =>
    let pId := normParent r.parentId
    if jsTruthy pId then
      match mapGet m pId with
      | some _ => [(pId, r.id)]
      | none => []
    else []

/-- The root candidacy (if any) contributed by one record: derived
form of the root half of `linkAndRootStep`. -/
def rootCand (m : List (JVal × NodeRec)) (r : RawRecord) : Option JVal :=
  match mapGet m r.id with
  | none => none
  | some _ =>
    if jsTruthy (normParent r.parentId) then none else some r.id

theorem linkAndRootStep_eq (m : List (JVal × NodeRec))
    (st : List (JVal × JVal) × Option JVal) (r : RawRecord) :
    linkAndRootStep m st r = (st.1 ++ linkOf m r, st.2 <|> rootCand m r) := by
  obtain ⟨ls, ro⟩ := st
  unfold linkAndRootStep linkOf rootCand
  cases hg : mapGet m r.id with
  | none =>
    cases ro <;> simp
  | some nd =>
    by_cases ht : jsTruthy (normParent r.parentId)
    · simp only [ht, if_true]
      cases hp : mapGet m (normParent r.parentId) with
      | none =>
        cases ro <;> simp
      | some p =>
        cases ro <;> simp
    · simp only [ht, if_false, Bool.false_eq_true]
      cases ro <;> simp [ht]

theorem linkPass_foldl_eq (m : List (JVal × NodeRec)) (l : List RawRecord) :
    ∀ st, l.foldl (linkAndRootStep m) st
      = (st.1 ++ l.flatMap (linkOf m), st.2 <|> l.findSome? (rootCand m)) := by
  induction l with
  | nil =>
    intro st
    simp
  | cons r l ih =>
    intro st
    rw [List.foldl_cons, ih, linkAndRootStep_eq]
    simp only [List.flatMap_cons, List.findSome?_cons]
    refine Prod.ext ?_ ?_
    · simp [List.append_assoc]
    · obtain ⟨ls, ro⟩ := st
      cases ro with
      | some v => cases hr : rootCand m r <;> simp [Option.orElse]
      | none => cases hr : rootCand m r <;> simp [hr, Option.orElse]

theorem linkPass_eq (m : List (JVal × NodeRec)) (l : List RawRecord) :
    linkPass m l = (l.flatMap (linkOf m), l.findSome? (rootCand m)) := by
  unfold linkPass
  rw [linkPass_foldl_eq]
  simp

end GeminiService

namespace Part001

/-- The node instance created in step 1 of `buildTreeFromFlatList`
(`src/unnamed/part_001`, lines 108-121).  Here the id IS coerced with
`String(raw.id)` before being used as the `Map` key. -/
def mkNode (r : RawRecord) : NodeRec :=
  { id := JVal.jstr (jsToString r.id)
    label := jsOr r.label (JVal.jstr "未命名")
    summary := jsOr r.summary (JVal.jstr "")
    quote := jsOr r.quote (JVal.jstr "")
    pageNumber := match r.pageNumber with
      | JVal.jnum n => n
      | _ => 1 }

/-- Step 1 over the whole list; the map is keyed by the coerced
string ids. -/
def nodeMapOf (l : List RawRecord) : List (String × NodeRec) :=
  l.foldl (fun m r => mapSet m (jsToString r.id) (mkNode r)) []

/-- The synthetic root injected in step 2 (lines 123-130); its `quote`
field is absent in the source object. -/
def syntheticRoot : NodeRec :=
  { id := JVal.jstr "root-synthetic"
    label := JVal.jstr "文档概览"
    summary := JVal.jstr "论文交互式导图"
    quote := JVal.jundef
    pageNumber := 1 }

/-- The parent-id cleaning of step 3 (lines 139-141):
`"null"`, `null` and `undefined` become null, anything else is
`String(...)`-coerced. -/
def parentKeyOf (r : RawRecord) : Option String :=
  if r.parentId = JVal.jstr "null" ∨ r.parentId = JVal.jnull ∨ r.parentId = JVal.jundef
  then none
  else some (jsToString r.parentId)

/-- One iteration of the linking loop of step 3 (lines 133-151).  The
state is the list of (parent key, child key) links pushed into map
nodes' `children` arrays, and the list of children pushed into the
synthetic root (which is a distinct object, so it is tracked apart
even if some record's id coerces to "root-synthetic"). -/
def linkStep (m : List (String × NodeRec))
    (st : List (String × String) × List String) (r : RawRecord) :
    List (String × String) × List String :=
  let safeId := jsToString r.id
  match mapGet m safeId with
  | none => st
  | some _ =>
    match parentKeyOf r with
    | some p =>
      if p ≠ "" ∧ mapHas m p = true then (st.1 ++ [(p, safeId)], st.2)
      else (st.1, st.2 ++ [safeId])
    | none => (st.1, st.2 ++ [safeId])

/-- Step 3 over the whole record list. -/
def linkPass (m : List (String × NodeRec)) (l : List RawRecord) :
    List (String × String) × List String :=
  l.foldl (linkStep m) ([], [])

/-- The reconstruction result of the synthetic-root variant: node map,
links into map nodes, the synthetic root's children (after the
orphan fallback of lines 153-157), and the returned root object. -/
structure BuildResult where
  nodes : List (String × NodeRec)
  links : List (String × String)
  synthChildren : List String
  root : NodeRec
deriving DecidableEq, Repr

/-- `buildTreeFromFlatList` (`src/unnamed/part_001`, lines 105-159):
always returns a tree whose designated root is the synthetic root;
never throws.  If no node was attached to the synthetic root but the
map is non-empty, all map nodes are attached to it (in insertion
order, `nodeMap.forEach`). -/
def buildTreeFromFlatList (l : List RawRecord) : BuildResult :=
  let m := nodeMapOf l
  let st := linkPass m l
  let sc := if st.2 = [] ∧ m ≠ [] then mapKeys m else st.2
  ⟨m, st.1, sc, syntheticRoot⟩

/-- The link (if any) a single record pushes into a map node: derived
form of the first half of `linkStep`. -/
def linkOf (m : List (String × NodeRec)) (r : RawRecord) : List (String × String) :=
  match mapGet m (jsToString r.id) with
  | none => []
  | some _ =>
    match parentKeyOf r with
    | some p =>
      if p ≠ "" ∧ mapHas m p = true then [(p, jsToString r.id)] else []
    | none => []

/-- The synthetic-root attachment (if any) a single record produces:
derived form of the second half of `linkStep`. -/
def topOf (m : List (String × NodeRec)) (r : RawRecord) : List String :=
  match mapGet m (jsToString r.id) with
  | none => []
  | some _ =>
    match parentKeyOf r with
    | some p =>
      if p ≠ "" ∧ mapHas m p = true then [] else [jsToString r.id]
    | none => [jsToString r.id]

theorem linkStep_eq (m : List (String × NodeRec))
    (st : List (String × String) × List String) (r : RawRecord) :
    linkStep m st r = (st.1 ++ linkOf m r, st.2 ++ topOf m r) := by
  obtain ⟨ls, sc⟩ := st
  unfold linkStep linkOf topOf
  cases hg : mapGet m (jsToString r.id) with
  | none => simp [hg]
  | some nd =>
    cases hp : parentKeyOf r with
    | none => simp [hg, hp]
    | some p =>
      by_cases hc : p ≠ "" ∧ mapHas m p = true
      · simp [hg, hp, hc]
      · simp [hg, hp, hc]

theorem linkPass_foldl_eq_p1 (m : List (String × NodeRec)) (l : List RawRecord) :
    ∀ st, l.foldl (linkStep m) st
      = (st.1 ++ l.flatMap (linkOf m), st.2 ++ l.flatMap (topOf m)) := by
  induction l with
  | nil =>
    intro st
    simp
  | cons r l ih =>
    intro st
    rw [List.foldl_cons, ih, linkStep_eq]
    simp [List.append_assoc]

theorem linkPass_eq_p1 (m : List (String × NodeRec)) (l : List RawRecord) :
    linkPass m l = (l.flatMap (linkOf m), l.flatMap (topOf m)) := by
  unfold linkPass
  rw [linkPass_foldl_eq_p1]
  simp

end Part001

/-- The children of the node keyed `k`, in push order, as recorded by
a list of (parent key, child key) links. -/
def linkChildren [DecidableEq κ] (links : List (κ × κ)) (k : κ) : List κ :=
  (links.filter (fun e => e.1 == k)).map (fun e => e.2)

/-- Strict reachability (the "descendant of" relation) through the
children arrays built by a reconstruction pass: `Reaches links a b`
holds when `b` can be reached from `a` by following one or more
parent-to-child links. -/
inductive Reaches [DecidableEq κ] (links : List (κ × κ)) : κ → κ → Prop where
  | child : ∀ {a b : κ}, b ∈ linkChildren links a → Reaches links a b
  | step : ∀ {a b c : κ}, b ∈ linkChildren links a → Reaches links b c → Reaches links a c

theorem mem_linkChildren_iff [DecidableEq κ] (links : List (κ × κ)) (a b : κ) :
    b ∈ linkChildren links a ↔ (a, b) ∈ links := by
  unfold linkChildren
  simp only [List.mem_map, List.mem_filter, beq_iff_eq]
  constructor
  · rintro ⟨e, ⟨he, h1⟩, h2⟩
    have : e = (a, b) := by
      cases e
      simp only [Prod.mk.injEq]
      exact ⟨h1, h2⟩
    exact this ▸ he
  · intro h
    exact ⟨(a, b), ⟨h, rfl⟩, rfl⟩

/-- If a rank function strictly increases along every recorded link,
it strictly increases along reachability. -/
theorem Reaches.rank_lt [DecidableEq κ] {links : List (κ × κ)} {rank : κ → ℕ}
    (hr : ∀ e ∈ links, rank e.1 < rank e.2) :
    ∀ {a b : κ}, Reaches links a b → rank a < rank b := by
  intro a b h
  induction h with
  | child hab =>
    rename_i a' b'
    exact hr (a', b') ((mem_linkChildren_iff links a' b').mp hab)
  | step hab _ ih =>
    rename_i a' b' c' _
    exact lt_trans (hr (a', b') ((mem_linkChildren_iff links a' b').mp hab)) ih

/-- Under the same hypothesis no key reaches itself. -/
theorem Reaches.irrefl_of_rank [DecidableEq κ] {links : List (κ × κ)} {rank : κ → ℕ}
    (hr : ∀ e ∈ links, rank e.1 < rank e.2) (k : κ) : ¬ Reaches links k k := by
  intro h
  exact lt_irrefl (rank k) (h.rank_lt hr)

/-- The domain tree handed to the layout passes (`MindMapNode` in
`types.ts`, `src/unnamed/part_002`): payload fields plus the optional
layout scratch fields `width` / `height`, which the metric passes
populate in place (here: functionally, by rebuilding the tree). -/
inductive MindMapNode where
  | mk (id label summary quote : String) (pageNumber : Int)
       (width height : ℚ) (children : List MindMapNode)

/-- The node's id. -/
def MindMapNode.id : MindMapNode → String
  | .mk i _ _ _ _ _ _ _ => i

/-- The node's label. -/
def MindMapNode.label : MindMapNode → String
  | .mk _ lb _ _ _ _ _ _ => lb

/-- The node's summary. -/
def MindMapNode.summary : MindMapNode → String
  | .mk _ _ sm _ _ _ _ _ => sm

/-- The node's quote. -/
def MindMapNode.quote : MindMapNode → String
  | .mk _ _ _ q _ _ _ _ => q

/-- The node's page number. -/
def MindMapNode.pageNumber : MindMapNode → Int
  | .mk _ _ _ _ pg _ _ _ => pg

/-- The `width` layout scratch field. -/
def MindMapNode.width : MindMapNode → ℚ
  | .mk _ _ _ _ _ w _ _ => w

/-- The `height` layout scratch field. -/
def MindMapNode.height : MindMapNode → ℚ
  | .mk _ _ _ _ _ _ h _ => h

/-- The node's children. -/
def MindMapNode.children : MindMapNode → List MindMapNode
  | .mk _ _ _ _ _ _ _ cs => cs

mutual

/-- Number of nodes in a tree. -/
def MindMapNode.size : MindMapNode → ℕ
  | .mk _ _ _ _ _ _ _ cs => 1 + MindMapNode.sizeList cs

/-- Number of nodes in a forest. -/
def MindMapNode.sizeList : List MindMapNode → ℕ
  | [] => 0
  | c :: cs => MindMapNode.size c + MindMapNode.sizeList cs

end

mutual

/-- The ids of a tree in preorder (the order in which
`assignPositions` visits nodes). -/
def MindMapNode.preorder : MindMapNode → List String
  | .mk i _ _ _ _ _ _ cs => i :: MindMapNode.preorderList cs

/-- The ids of a forest in preorder. -/
def MindMapNode.preorderList : List MindMapNode → List String
  | [] => []
  | c :: cs => MindMapNode.preorder c ++ MindMapNode.preorderList cs

end

/-- Font sizes offered by the graph toolbars (`types.ts`). -/
inductive FontSize where
  | small
  | medium
  | large
deriving DecidableEq, Repr

/-- The options threaded through `assignPositions`; pure passthrough
styling data (`edgeType` is one of the `reactflow` edge type tags). -/
structure MindMapOptions where
  edgeType : String
  fontSize : FontSize
deriving DecidableEq, Repr

/-- The font-size class lookup shared by both graph components. -/
def fontSizeClassOf : FontSize → String
  | .small => "text-xs"
  | .medium => "text-sm"
  | .large => "text-base"

/-- A node record pushed into the `nodes` output array of
`assignPositions` (the data payload of the rendered box). -/
structure FlowNode where
  id : String
  x : ℚ
  y : ℚ
  label : String
  summary : String
  pageNumber : Int
  quote : String
  fontSizeClass : String
deriving DecidableEq, Repr

/-- An edge record pushed into the `edges` output array of
`assignPositions` (passthrough constants such as `animated` and the
stroke style are omitted: they carry no computation). -/
structure FlowEdge where
  id : String
  source : String
  target : String
  edgeType : String
deriving DecidableEq, Repr

namespace MindMapGraph

/-- `src/components/MindMapGraph.tsx` layout constants. -/
def NODE_WIDTH : ℚ := 260

/-- Base height estimate. -/
def NODE_HEIGHT : ℚ := 140

/-- Horizontal gap between sibling trees. -/
def X_SPACING : ℚ := 30

/-- Vertical gap between generations. -/
def Y_SPACING : ℚ := 80

mutual

/-- `calculateSubtreeSize` (`MindMapGraph.tsx`, lines 29-47): post-order
pass that writes `node.width` (here: returns the annotated tree) and
returns the subtree's width footprint. -/
def calculateSubtreeSize : MindMapNode → MindMapNode × ℚ
  | .mk i lb sm q pg _ h [] =>
    (.mk i lb sm q pg NODE_WIDTH h [], NODE_WIDTH)
  | .mk i lb sm q pg _ h (c :: cs) =>
    let r := sizeChildren (c :: cs)
    (.mk i lb sm q pg (max NODE_WIDTH r.2) h r.1, max NODE_WIDTH r.2)

/-- The `forEach` accumulation of `calculateSubtreeSize`: recursively
annotate each child and total their widths, adding `X_SPACING` after
every child but the last (`index < length - 1`). -/
def sizeChildren : List MindMapNode → List MindMapNode × ℚ
  | [] => ([], 0)
  | [c] =>
    let rc := calculateSubtreeSize c
    ([rc.1], rc.2)
  | c :: c2 :: cs =>
    let rc := calculateSubtreeSize c
    let rest := sizeChildren (c2 :: cs)
    (rc.1 :: rest.1, rc.2 + X_SPACING + rest.2)

end

/-- The tree after the metric pass (the in-place `width` mutation). -/
def annot (t : MindMapNode) : MindMapNode :=
  (calculateSubtreeSize t).1

mutual

/-- `assignPositions` (`MindMapGraph.tsx`, lines 50-111): preorder pass
producing the flat node and edge arrays.  The node box is placed at
`x + width/2 - NODE_WIDTH/2` (centering its fixed box in the subtree
footprint), children one rank down at `y + NODE_HEIGHT + Y_SPACING`. -/
def assignPositions (n : MindMapNode) (x y : ℚ) (opts : MindMapOptions)
    (parentId : Option String) : List FlowNode × List FlowEdge :=
  match n with
  | .mk i lb sm q pg w _ cs =>
    let myX := x + w / 2 - NODE_WIDTH / 2
    let self : FlowNode :=
      ⟨i, myX, y, lb, sm, pg, q, fontSizeClassOf opts.fontSize⟩
    let es : List FlowEdge :=
      match parentId with
      | some p => [⟨p ++ "-" ++ i, p, i, opts.edgeType⟩]
      | none => []
    let rest := assignChildren cs x (y + NODE_HEIGHT + Y_SPACING) opts i
    (self :: rest.1, es ++ rest.2)

/-- The children loop of `assignPositions`: each child is laid out at
the running cursor `currentX`, which then advances by
`child.width + X_SPACING`. -/
def assignChildren : List MindMapNode → ℚ → ℚ → MindMapOptions → String →
    List FlowNode × List FlowEdge
  | [], _, _, _, _ => ([], [])
  | c :: cs, cx, cy, opts, pid =>
    let rc := assignPositions c cx cy opts (some pid)
    let rest := assignChildren cs (cx + c.width + X_SPACING) cy opts pid
    (rc.1 ++ rest.1, rc.2 ++ rest.2)

end

/-- The lateral span `[cursor, cursor + width]` each child subtree is
allocated by the children loop of `assignPositions`, in sibling
order. -/
def childAllocations (cx : ℚ) : List MindMapNode → List (ℚ × ℚ)
  | [] => []
  | c :: cs => (cx, cx + c.width) :: childAllocations (cx + c.width + X_SPACING) cs

end MindMapGraph

namespace MindMapGraphLTR

/-- Layout constants of the left-to-right variant
(`src/components/OutlineView.tsx`, embedded `MindMapGraph`). -/
def NODE_WIDTH : ℚ := 280

/-- Fixed node box height. -/
def NODE_HEIGHT : ℚ := 140

/-- Horizontal spacing between ranks. -/
def RANK_SPACING : ℚ := 140

/-- Vertical spacing between siblings. -/
def NODE_SPACING : ℚ := 24

mutual

/-- `calculateSubtreeHeight` (`OutlineView.tsx` embedded variant,
lines 182-199): post-order pass that writes `node.height` (here:
returns the annotated tree) and returns the subtree's height
footprint. -/
def calculateSubtreeHeight : MindMapNode → MindMapNode × ℚ
  | .mk i lb sm q pg w _ [] =>
    (.mk i lb sm q pg w NODE_HEIGHT [], NODE_HEIGHT)
  | .mk i lb sm q pg w _ (c :: cs) =>
    let r := heightChildren (c :: cs)
    (.mk i lb sm q pg w (max NODE_HEIGHT r.2) r.1, max NODE_HEIGHT r.2)

/-- The `forEach` accumulation of `calculateSubtreeHeight`: annotate
each child and total their heights, adding `NODE_SPACING` after every
child but the last. -/
def heightChildren : List MindMapNode → List MindMapNode × ℚ
  | [] => ([], 0)
  | [c] =>
    let rc := calculateSubtreeHeight c
    ([rc.1], rc.2)
  | c :: c2 :: cs =>
    let rc := calculateSubtreeHeight c
    let rest := heightChildren (c2 :: cs)
    (rc.1 :: rest.1, rc.2 + NODE_SPACING + rest.2)

end

/-- The tree after the metric pass (the in-place `height` mutation). -/
def annot (t : MindMapNode) : MindMapNode :=
  (calculateSubtreeHeight t).1

/-- `childrenStackHeight` as computed inside `assignPositions`
(lines 256-257): `reduce((acc, c) => acc + (c.height || 0), 0)` plus
`(length - 1) * NODE_SPACING`.  (`c.height || 0` equals `c.height`
on every rational: `0 || 0` is `0`.) -/
def childrenStackHeight (cs : List MindMapNode) : ℚ :=
  cs.foldl (fun a c => a + c.height) 0 + ((cs.length : ℚ) - 1) * NODE_SPACING

mutual

/-- `assignPositions` (`OutlineView.tsx` embedded variant, lines
202-267): preorder pass for the left-to-right layout.  The node box
is placed at `y + height/2 - NODE_HEIGHT/2`; children sit one rank to
the right at `x + NODE_WIDTH + RANK_SPACING`, starting from
`y + (height - childrenStackHeight)/2` (centering the children block
against the parent's footprint). -/
def assignPositions (n : MindMapNode) (x y : ℚ) (opts : MindMapOptions)
    (parentId : Option String) : List FlowNode × List FlowEdge :=
  match n with
  | .mk i lb sm q pg _ h cs =>
    let myY := y + h / 2 - NODE_HEIGHT / 2
    let myX := x
    let self : FlowNode :=
      ⟨i, myX, myY, lb, sm, pg, q, fontSizeClassOf opts.fontSize⟩
    let es : List FlowEdge :=
      match parentId with
      | some p => [⟨p ++ "-" ++ i, p, i, opts.edgeType⟩]
      | none => []
    match cs with
    | [] => (self :: [], es)
    | c :: cs' =>
      let childX := x + NODE_WIDTH + RANK_SPACING
      let offset := (h - childrenStackHeight (c :: cs')) / 2
      let rest := assignChildren (c :: cs') childX (y + offset) opts i
      (self :: rest.1, es ++ rest.2)

/-- The children loop: each child is laid out at the running cursor
`currentY`, which then advances by `child.height + NODE_SPACING`. -/
def assignChildren : List MindMapNode → ℚ → ℚ → MindMapOptions → String →
    List FlowNode × List FlowEdge
  | [], _, _, _, _ => ([], [])
  | c :: cs, cx, cy, opts, pid =>
    let rc := assignPositions c cx cy opts (some pid)
    let rest := assignChildren cs cx (cy + c.height + NODE_SPACING) opts pid
    (rc.1 ++ rest.1, rc.2 ++ rest.2)

end

/-- The vertical span `[cursor, cursor + height]` each child subtree
is allocated by the children loop of `assignPositions`, in sibling
order. -/
def childAllocations (cy : ℚ) : List MindMapNode → List (ℚ × ℚ)
  | [] => []
  | c :: cs => (cy, cy + c.height) :: childAllocations (cy + c.height + NODE_SPACING) cs

end MindMapGraphLTR

theorem MindMapNode.width_mk (i lb sm q : String) (pg : Int) (w h : ℚ)
    (cs : List MindMapNode) : (MindMapNode.mk i lb sm q pg w h cs).width = w := rfl

theorem MindMapNode.height_mk (i lb sm q : String) (pg : Int) (w h : ℚ)
    (cs : List MindMapNode) : (MindMapNode.mk i lb sm q pg w h cs).height = h := rfl

theorem MindMapNode.children_mk (i lb sm q : String) (pg : Int) (w h : ℚ)
    (cs : List MindMapNode) : (MindMapNode.mk i lb sm q pg w h cs).children = cs := rfl

theorem MindMapNode.id_mk (i lb sm q : String) (pg : Int) (w h : ℚ)
    (cs : List MindMapNode) : (MindMapNode.mk i lb sm q pg w h cs).id = i := rfl

namespace MindMapGraph

theorem calc_ge_base (t : MindMapNode) :
    NODE_WIDTH ≤ (calculateSubtreeSize t).2 := by
  match t with
  | .mk i lb sm q pg w h [] => simp [calculateSubtreeSize]
  | .mk i lb sm q pg w h (c :: cs) => simp [calculateSubtreeSize]

theorem annot_width (t : MindMapNode) :
    (annot t).width = (calculateSubtreeSize t).2 := by
  match t with
  | .mk i lb sm q pg w h [] => simp [annot, calculateSubtreeSize, MindMapNode.width_mk]
  | .mk i lb sm q pg w h (c :: cs) => simp [annot, calculateSubtreeSize, MindMapNode.width_mk]

theorem annot_width_ge (t : MindMapNode) : NODE_WIDTH ≤ (annot t).width := by
  rw [annot_width]
  exact calc_ge_base t

theorem sizeChildren_fst (c : MindMapNode) (cs : List MindMapNode) :
    (sizeChildren (c :: cs)).1 = (c :: cs).map annot := by
  induction cs generalizing c with
  | nil => simp [sizeChildren, annot]
  | cons c2 cs ih => simp [sizeChildren, annot, ih c2]

theorem annot_children (t : MindMapNode) :
    (annot t).children = t.children.map annot := by
  match t with
  | .mk i lb sm q pg w h [] =>
    simp [annot, calculateSubtreeSize, MindMapNode.children_mk]
  | .mk i lb sm q pg w h (c :: cs) =>
    simp [annot, calculateSubtreeSize, MindMapNode.children_mk,
      sizeChildren_fst c cs]

theorem sizeChildren_snd (c : MindMapNode) (cs : List MindMapNode) :
    (sizeChildren (c :: cs)).2
      = (((c :: cs).map (fun x => (calculateSubtreeSize x).2)).sum
          + (((c :: cs).length : ℚ) - 1) * X_SPACING) := by
  induction cs generalizing c with
  | nil => simp [sizeChildren]
  | cons c2 cs ih =>
    rw [show sizeChildren (c :: c2 :: cs)
        = ((calculateSubtreeSize c).1 :: (sizeChildren (c2 :: cs)).1,
           (calculateSubtreeSize c).2 + X_SPACING + (sizeChildren (c2 :: cs)).2)
      from rfl]
    rw [ih c2]
    simp only [List.map_cons, List.sum_cons, List.length_cons]
    push_cast
    ring

theorem sizeChildren_snd_ge (c : MindMapNode) (cs : List MindMapNode) :
    NODE_WIDTH ≤ (sizeChildren (c :: cs)).2 := by
  induction cs generalizing c with
  | nil =>
    simpa [sizeChildren] using calc_ge_base c
  | cons c2 cs ih =>
    rw [show (sizeChildren (c :: c2 :: cs)).2
        = (calculateSubtreeSize c).2 + X_SPACING + (sizeChildren (c2 :: cs)).2
      from rfl]
    have h1 := calc_ge_base c
    have h2 := ih c2
    have hsp : (0 : ℚ) ≤ X_SPACING := by norm_num [X_SPACING]
    have hnw : (0 : ℚ) ≤ NODE_WIDTH := by norm_num [NODE_WIDTH]
    linarith

theorem childAllocations_start_ge (cs : List MindMapNode) :
    ∀ cx, (∀ c ∈ cs, 0 ≤ c.width) → ∀ a ∈ childAllocations cx cs, cx ≤ a.1 := by
  induction cs with
  | nil => intro cx _ a ha; simp [childAllocations] at ha
  | cons c cs ih =>
    intro cx hw a ha
    simp only [childAllocations, List.mem_cons] at ha
    rcases ha with ha | ha
    · subst ha; rfl
    · have hcw : 0 ≤ c.width := hw c (List.mem_cons_self c cs)
      have hsp : (0 : ℚ) ≤ X_SPACING := by norm_num [X_SPACING]
      have := ih (cx + c.width + X_SPACING)
        (fun x hx => hw x (List.mem_cons_of_mem c hx)) a ha
      linarith

theorem childAllocations_pairwise (cs : List MindMapNode) :
    ∀ cx, (∀ c ∈ cs, 0 ≤ c.width) →
      List.Pairwise (fun a b => a.2 < b.1) (childAllocations cx cs) := by
  induction cs with
  | nil => intro cx _; simp [childAllocations]
  | cons c cs ih =>
    intro cx hw
    simp only [childAllocations]
    constructor
    · intro a ha
      have hstart := childAllocations_start_ge cs (cx + c.width + X_SPACING)
        (fun x hx => hw x (List.mem_cons_of_mem c hx)) a ha
      have hsp : (0 : ℚ) < X_SPACING := by norm_num [X_SPACING]
      simp only
      linarith
    · exact ih (cx + c.width + X_SPACING) (fun x hx => hw x (List.mem_cons_of_mem c hx))

/-- The total lateral extent the children loop walks through:
sum of the children's widths plus the inter-sibling gaps. -/
def stackWidth (cs : List MindMapNode) : ℚ :=
  (cs.map MindMapNode.width).sum + ((cs.length : ℚ) - 1) * X_SPACING

theorem childAllocations_getLast (c : MindMapNode) (cs : List MindMapNode) :
    ∀ cx, ∃ a, (childAllocations cx (c :: cs)).getLast? = some a
      ∧ a.2 = cx + stackWidth (c :: cs) := by
  induction cs generalizing c with
  | nil =>
    intro cx
    refine ⟨(cx, cx + c.width), rfl, ?_⟩
    simp [stackWidth]
  | cons c2 cs ih =>
    intro cx
    rcases ih c2 (cx + c.width + X_SPACING) with ⟨a, ha, hend⟩
    refine ⟨a, ?_, ?_⟩
    · rw [show childAllocations cx (c :: c2 :: cs)
          = (cx, cx + c.width) :: childAllocations (cx + c.width + X_SPACING) (c2 :: cs)
        from rfl]
      rw [show childAllocations (cx + c.width + X_SPACING) (c2 :: cs)
          = (cx + c.width + X_SPACING, cx + c.width + X_SPACING + c2.width)
            :: childAllocations (cx + c.width + X_SPACING + c2.width + X_SPACING) cs
        from rfl]
      rw [List.getLast?_cons_cons]
      exact ha
    · rw [hend]
      simp only [stackWidth, List.map_cons, List.sum_cons, List.length_cons]
      push_cast
      ring

end MindMapGraph

namespace MindMapGraphLTR

theorem calc_ge_base_ltr (t : MindMapNode) :
    NODE_HEIGHT ≤ (calculateSubtreeHeight t).2 := by
  match t with
  | .mk i lb sm q pg w h [] => simp [calculateSubtreeHeight]
  | .mk i lb sm q pg w h (c :: cs) => simp [calculateSubtreeHeight]

theorem annot_height (t : MindMapNode) :
    (annot t).height = (calculateSubtreeHeight t).2 := by
  match t with
  | .mk i lb sm q pg w h [] => simp [annot, calculateSubtreeHeight, MindMapNode.height_mk]
  | .mk i lb sm q pg w h (c :: cs) => simp [annot, calculateSubtreeHeight, MindMapNode.height_mk]

theorem annot_height_ge (t : MindMapNode) : NODE_HEIGHT ≤ (annot t).height := by
  rw [annot_height]
  exact calc_ge_base_ltr t

theorem heightChildren_fst (c : MindMapNode) (cs : List MindMapNode) :
    (heightChildren (c :: cs)).1 = (c :: cs).map annot := by
  induction cs generalizing c with
  | nil => simp [heightChildren, annot]
  | cons c2 cs ih => simp [heightChildren, annot, ih c2]

theorem annot_children_ltr (t : MindMapNode) :
    (annot t).children = t.children.map annot := by
  match t with
  | .mk i lb sm q pg w h [] =>
    simp [annot, calculateSubtreeHeight, MindMapNode.children_mk]
  | .mk i lb sm q pg w h (c :: cs) =>
    simp [annot, calculateSubtreeHeight, MindMapNode.children_mk,
      heightChildren_fst c cs]

theorem heightChildren_snd (c : MindMapNode) (cs : List MindMapNode) :
    (heightChildren (c :: cs)).2
      = (((c :: cs).map (fun x => (calculateSubtreeHeight x).2)).sum
          + (((c :: cs).length : ℚ) - 1) * NODE_SPACING) := by
  induction cs generalizing c with
  | nil => simp [heightChildren]
  | cons c2 cs ih =>
    rw [show heightChildren (c :: c2 :: cs)
        = ((calculateSubtreeHeight c).1 :: (heightChildren (c2 :: cs)).1,
           (calculateSubtreeHeight c).2 + NODE_SPACING + (heightChildren (c2 :: cs)).2)
      from rfl]
    rw [ih c2]
    simp only [List.map_cons, List.sum_cons, List.length_cons]
    push_cast
    ring

theorem heightChildren_snd_ge (c : MindMapNode) (cs : List MindMapNode) :
    NODE_HEIGHT ≤ (heightChildren (c :: cs)).2 := by
  induction cs generalizing c with
  | nil =>
    simpa [heightChildren] using calc_ge_base_ltr c
  | cons c2 cs ih =>
    rw [show (heightChildren (c :: c2 :: cs)).2
        = (calculateSubtreeHeight c).2 + NODE_SPACING + (heightChildren (c2 :: cs)).2
      from rfl]
    have h1 := calc_ge_base_ltr c
    have h2 := ih c2
    have hsp : (0 : ℚ) ≤ NODE_SPACING := by norm_num [NODE_SPACING]
    have hnh : (0 : ℚ) ≤ NODE_HEIGHT := by norm_num [NODE_HEIGHT]
    linarith

theorem foldl_add_height (cs : List MindMapNode) :
    ∀ x : ℚ, cs.foldl (fun a c => a + c.height) x
      = x + (cs.map MindMapNode.height).sum := by
  induction cs with
  | nil => intro x; simp
  | cons c cs ih =>
    intro x
    rw [List.foldl_cons, ih (x + c.height)]
    simp only [List.map_cons, List.sum_cons]
    ring

theorem childrenStackHeight_eq (cs : List MindMapNode) :
    childrenStackHeight cs
      = (cs.map MindMapNode.height).sum + ((cs.length : ℚ) - 1) * NODE_SPACING := by
  unfold childrenStackHeight
  rw [foldl_add_height cs 0]
  ring

theorem childAllocations_start_ge_ltr (cs : List MindMapNode) :
    ∀ cy, (∀ c ∈ cs, 0 ≤ c.height) → ∀ a ∈ childAllocations cy cs, cy ≤ a.1 := by
  induction cs with
  | nil => intro cy _ a ha; simp [childAllocations] at ha
  | cons c cs ih =>
    intro cy hw a ha
    simp only [childAllocations, List.mem_cons] at ha
    rcases ha with ha | ha
    · subst ha; rfl
    · have hcw : 0 ≤ c.height := hw c (List.mem_cons_self c cs)
      have hsp : (0 : ℚ) ≤ NODE_SPACING := by norm_num [NODE_SPACING]
      have := ih (cy + c.height + NODE_SPACING)
        (fun x hx => hw x (List.mem_cons_of_mem c hx)) a ha
      linarith

theorem childAllocations_pairwise_ltr (cs : List MindMapNode) :
    ∀ cy, (∀ c ∈ cs, 0 ≤ c.height) →
      List.Pairwise (fun a b => a.2 < b.1) (childAllocations cy cs) := by
  induction cs with
  | nil => intro cy _; simp [childAllocations]
  | cons c cs ih =>
    intro cy hw
    simp only [childAllocations]
    constructor
    · intro a ha
      have hstart := childAllocations_start_ge_ltr cs (cy + c.height + NODE_SPACING)
        (fun x hx => hw x (List.mem_cons_of_mem c hx)) a ha
      have hsp : (0 : ℚ) < NODE_SPACING := by norm_num [NODE_SPACING]
      simp only
      linarith
    · exact ih (cy + c.height + NODE_SPACING) (fun x hx => hw x (List.mem_cons_of_mem c hx))

theorem childAllocations_getLast_ltr (c : MindMapNode) (cs : List MindMapNode) :
    ∀ cy, ∃ a, (childAllocations cy (c :: cs)).getLast? = some a
      ∧ a.2 = cy + childrenStackHeight (c :: cs) := by
  induction cs generalizing c with
  | nil =>
    intro cy
    refine ⟨(cy, cy + c.height), rfl, ?_⟩
    rw [childrenStackHeight_eq]
    simp
  | cons c2 cs ih =>
    intro cy
    rcases ih c2 (cy + c.height + NODE_SPACING) with ⟨a, ha, hend⟩
    refine ⟨a, ?_, ?_⟩
    · rw [show childAllocations cy (c :: c2 :: cs)
          = (cy, cy + c.height) :: childAllocations (cy + c.height + NODE_SPACING) (c2 :: cs)
        from rfl]
      rw [show childAllocations (cy + c.height + NODE_SPACING) (c2 :: cs)
          = (cy + c.height + NODE_SPACING, cy + c.height + NODE_SPACING + c2.height)
            :: childAllocations (cy + c.height + NODE_SPACING + c2.height + NODE_SPACING) cs
        from rfl]
      rw [List.getLast?_cons_cons]
      exact ha
    · rw [hend, childrenStackHeight_eq, childrenStackHeight_eq]
      simp only [List.map_cons, List.sum_cons, List.length_cons]
      push_cast
      ring

end MindMapGraphLTR

namespace MindMapGraph

mutual

theorem assign_edges_length (t : MindMapNode) :
    ∀ x y opts p, ((assignPositions t x y opts (some p)).2).length = t.size := by
  match t with
  | .mk i lb sm q pg w h cs =>
    intro x y opts p
    simp only [assignPositions, MindMapNode.size, List.append_assoc, List.length_append,
      List.length_cons, List.length_nil]
    rw [assignChildren_edges_length cs x (y + NODE_HEIGHT + Y_SPACING) opts i]

theorem assignChildren_edges_length (cs : List MindMapNode) :
    ∀ cx cy opts pid, ((assignChildren cs cx cy opts pid).2).length
      = MindMapNode.sizeList cs := by
  match cs with
  | [] =>
    intro cx cy opts pid
    simp [assignChildren, MindMapNode.sizeList]
  | c :: cs' =>
    intro cx cy opts pid
    simp only [assignChildren, MindMapNode.sizeList, List.length_append]
    rw [assign_edges_length c cx cy opts pid,
      assignChildren_edges_length cs' (cx + c.width + X_SPACING) cy opts pid]

end

theorem assign_edges_length_root (t : MindMapNode) (x y : ℚ) (opts : MindMapOptions) :
    ((assignPositions t x y opts none).2).length = t.size - 1 := by
  match t with
  | .mk i lb sm q pg w h cs =>
    simp only [assignPositions, MindMapNode.size, List.nil_append]
    rw [assignChildren_edges_length cs x (y + NODE_HEIGHT + Y_SPACING) opts i]
    omega

mutual

theorem assign_edge_targets (t : MindMapNode) :
    ∀ x y opts p, ((assignPositions t x y opts (some p)).2).map (fun e => e.target)
      = t.preorder := by
  match t with
  | .mk i lb sm q pg w h cs =>
    intro x y opts p
    simp only [assignPositions, MindMapNode.preorder, List.map_append, List.map_cons,
      List.map_nil]
    rw [assignChildren_edge_targets cs x (y + NODE_HEIGHT + Y_SPACING) opts i]
    rfl

theorem assignChildren_edge_targets (cs : List MindMapNode) :
    ∀ cx cy opts pid, ((assignChildren cs cx cy opts pid).2).map (fun e => e.target)
      = MindMapNode.preorderList cs := by
  match cs with
  | [] =>
    intro cx cy opts pid
    simp [assignChildren, MindMapNode.preorderList]
  | c :: cs' =>
    intro cx cy opts pid
    simp only [assignChildren, MindMapNode.preorderList, List.map_append]
    rw [assign_edge_targets c cx cy opts pid,
      assignChildren_edge_targets cs' (cx + c.width + X_SPACING) cy opts pid]

end

theorem assign_edge_targets_root (t : MindMapNode) (x y : ℚ) (opts : MindMapOptions) :
    ((assignPositions t x y opts none).2).map (fun e => e.target)
      = t.preorder.tail := by
  match t with
  | .mk i lb sm q pg w h cs =>
    simp only [assignPositions, MindMapNode.preorder, List.nil_append, List.tail_cons]
    exact assignChildren_edge_targets cs x (y + NODE_HEIGHT + Y_SPACING) opts i

/-- The lateral extent of the annotated children equals the width
accumulation computed by the metric pass. -/
theorem stackWidth_annot (c : MindMapNode) (cs : List MindMapNode) :
    stackWidth ((c :: cs).map annot) = (sizeChildren (c :: cs)).2 := by
  unfold stackWidth
  rw [sizeChildren_snd, List.map_map, List.length_map]
  have : (c :: cs).map (MindMapNode.width ∘ annot)
      = (c :: cs).map (fun x => (calculateSubtreeSize x).2) := by
    apply List.map_congr_left
    intro a _
    exact annot_width a
  rw [this]

end MindMapGraph

namespace MindMapGraphLTR

mutual

theorem assign_edges_length_ltr (t : MindMapNode) :
    ∀ x y opts p, ((assignPositions t x y opts (some p)).2).length = t.size := by
  match t with
  | .mk i lb sm q pg w h [] =>
    intro x y opts p
    simp [assignPositions, MindMapNode.size, MindMapNode.sizeList]
  | .mk i lb sm q pg w h (c :: cs') =>
    intro x y opts p
    simp only [assignPositions, MindMapNode.size, List.length_append, List.length_cons,
      List.length_nil]
    rw [assignChildren_edges_length_ltr (c :: cs') (x + NODE_WIDTH + RANK_SPACING)
      (y + (h - childrenStackHeight (c :: cs')) / 2) opts i]

theorem assignChildren_edges_length_ltr (cs : List MindMapNode) :
    ∀ cx cy opts pid, ((assignChildren cs cx cy opts pid).2).length
      = MindMapNode.sizeList cs := by
  match cs with
  | [] =>
    intro cx cy opts pid
    simp [assignChildren, MindMapNode.sizeList]
  | c :: cs' =>
    intro cx cy opts pid
    simp only [assignChildren, MindMapNode.sizeList, List.length_append]
    rw [assign_edges_length_ltr c cx cy opts pid,
      assignChildren_edges_length_ltr cs' cx (cy + c.height + NODE_SPACING) opts pid]

end

theorem assign_edges_length_root_ltr (t : MindMapNode) (x y : ℚ) (opts : MindMapOptions) :
    ((assignPositions t x y opts none).2).length = t.size - 1 := by
  match t with
  | .mk i lb sm q pg w h [] =>
    simp [assignPositions, MindMapNode.size, MindMapNode.sizeList]
  | .mk i lb sm q pg w h (c :: cs') =>
    simp only [assignPositions, MindMapNode.size, List.nil_append]
    rw [assignChildren_edges_length_ltr (c :: cs') (x + NODE_WIDTH + RANK_SPACING)
      (y + (h - childrenStackHeight (c :: cs')) / 2) opts i]
    omega

mutual

theorem assign_edge_targets_ltr (t : MindMapNode) :
    ∀ x y opts p, ((assignPositions t x y opts (some p)).2).map (fun e => e.target)
      = t.preorder := by
  match t with
  | .mk i lb sm q pg w h [] =>
    intro x y opts p
    simp [assignPositions, MindMapNode.preorder, MindMapNode.preorderList]
  | .mk i lb sm q pg w h (c :: cs') =>
    intro x y opts p
    simp only [assignPositions, MindMapNode.preorder, List.map_append, List.map_cons,
      List.map_nil]
    rw [assignChildren_edge_targets_ltr (c :: cs') (x + NODE_WIDTH + RANK_SPACING)
      (y + (h - childrenStackHeight (c :: cs')) / 2) opts i]
    rfl

theorem assignChildren_edge_targets_ltr (cs : List MindMapNode) :
    ∀ cx cy opts pid, ((assignChildren cs cx cy opts pid).2).map (fun e => e.target)
      = MindMapNode.preorderList cs := by
  match cs with
  | [] =>
    intro cx cy opts pid
    simp [assignChildren, MindMapNode.preorderList]
  | c :: cs' =>
    intro cx cy opts pid
    simp only [assignChildren, MindMapNode.preorderList, List.map_append]
    rw [assign_edge_targets_ltr c cx cy opts pid,
      assignChildren_edge_targets_ltr cs' cx (cy + c.height + NODE_SPACING) opts pid]

end

theorem assign_edge_targets_root_ltr (t : MindMapNode) (x y : ℚ) (opts : MindMapOptions) :
    ((assignPositions t x y opts none).2).map (fun e => e.target)
      = t.preorder.tail := by
  match t with
  | .mk i lb sm q pg w h [] =>
    simp [assignPositions, MindMapNode.preorder, MindMapNode.preorderList]
  | .mk i lb sm q pg w h (c :: cs') =>
    simp only [assignPositions, MindMapNode.preorder, List.nil_append, List.tail_cons]
    exact assignChildren_edge_targets_ltr (c :: cs') (x + NODE_WIDTH + RANK_SPACING)
      (y + (h - childrenStackHeight (c :: cs')) / 2) opts i

end MindMapGraphLTR

theorem mem_mapKeys_foldl [DecidableEq κ] (key : α → κ) (f : α → β) :
    ∀ (l : List α) (m : List (κ × β)) (x : κ),
      x ∈ mapKeys (l.foldl (fun m r => mapSet m (key r) (f r)) m)
        ↔ x ∈ mapKeys m ∨ ∃ r ∈ l, key r = x := by
  intro l
  induction l with
  | nil =>
    intro m x
    simp
  | cons r l ih =>
    intro m x
    rw [List.foldl_cons, ih (mapSet m (key r) (f r)) x]
    rw [mem_mapKeys_mapSet m (key r) x (f r)]
    constructor
    · rintro ((hx | hx) | ⟨r', hr', hk⟩)
      · exact Or.inl hx
      · exact Or.inr ⟨r, List.mem_cons_self r l, hx.symm⟩
      · exact Or.inr ⟨r', List.mem_cons_of_mem r hr', hk⟩
    · rintro (hx | ⟨r', hr', hk⟩)
      · exact Or.inl (Or.inl hx)
      · rcases List.mem_cons.mp hr' with hr' | hr'
        · exact Or.inl (Or.inr (hr' ▸ hk).symm)
        · exact Or.inr ⟨r', hr', hk⟩

theorem foldl_mapSet_ne_nil [DecidableEq κ] (key : α → κ) (f : α → β) :
    ∀ (l : List α) (m : List (κ × β)), (m ≠ [] ∨ l ≠ []) →
      l.foldl (fun m r => mapSet m (key r) (f r)) m ≠ [] := by
  intro l
  induction l with
  | nil =>
    intro m h
    rcases h with h | h
    · simpa using h
    · exact absurd rfl h
  | cons r l ih =>
    intro m _
    rw [List.foldl_cons]
    exact ih (mapSet m (key r) (f r)) (Or.inl (mapSet_ne_nil m (key r) (f r)))

namespace GeminiService

theorem nodeMapOf_mem_keys (l : List RawRecord) (x : JVal) :
    x ∈ mapKeys (nodeMapOf l) ↔ ∃ r ∈ l, r.id = x := by
  have h := mem_mapKeys_foldl (fun r : RawRecord => r.id) mkNode l [] x
  simpa [nodeMapOf, mapKeys] using h

theorem nodeMapOf_ne_nil (l : List RawRecord) (h : l ≠ []) : nodeMapOf l ≠ [] :=
  foldl_mapSet_ne_nil (fun r : RawRecord => r.id) mkNode l [] (Or.inr h)

theorem nodeMapOf_get_some (l : List RawRecord) (r : RawRecord) (hr : r ∈ l) :
    ∃ v, mapGet (nodeMapOf l) r.id = some v := by
  apply mapGet_isSome_of_has
  rw [mapHas_iff_mem_keys, nodeMapOf_mem_keys]
  exact ⟨r, hr, rfl⟩

theorem rootCand_mem_keys (l : List RawRecord) (r : RawRecord) (k : JVal)
    (hr : r ∈ l) (hc : rootCand (nodeMapOf l) r = some k) :
    k ∈ mapKeys (nodeMapOf l) := by
  unfold rootCand at hc
  rcases hg : mapGet (nodeMapOf l) r.id with _ | nd
  · rw [hg] at hc
    simp at hc
  · rw [hg] at hc
    by_cases ht : jsTruthy (normParent r.parentId)
    · simp [ht] at hc
    · simp only [ht, Bool.false_eq_true, if_false, Option.some.injEq] at hc
      rw [nodeMapOf_mem_keys]
      exact ⟨r, hr, hc⟩

theorem buildTree_ok_of_ne_nil (l : List RawRecord) (h : l ≠ []) :
    ∃ g, buildTreeFromFlatList l = .ok g
      ∧ g.nodes = nodeMapOf l
      ∧ g.links = l.flatMap (linkOf (nodeMapOf l))
      ∧ g.root ∈ mapKeys (nodeMapOf l) := by
  unfold buildTreeFromFlatList
  simp only [linkPass_eq]
  cases hf : l.findSome? (rootCand (nodeMapOf l)) with
  | some rk =>
    refine ⟨_, rfl, rfl, rfl, ?_⟩
    rcases List.exists_of_findSome?_eq_some hf with ⟨r, hr, hc⟩
    exact rootCand_mem_keys l r rk hr hc
  | none =>
    cases hm : nodeMapOf l with
    | nil => exact absurd hm (nodeMapOf_ne_nil l h)
    | cons e m' =>
      obtain ⟨k, v⟩ := e
      refine ⟨_, rfl, rfl, rfl, ?_⟩
      unfold mapKeys
      simp

end GeminiService

namespace Part001

/-- The full child relation of the returned tree, over `Option String`
keys where `none` stands for the synthetic root object (distinct from
any map node, even one whose id coerces to "root-synthetic"). -/
def allLinks (g : BuildResult) : List (Option String × Option String) :=
  g.synthChildren.map (fun c => ((none : Option String), some c))
    ++ g.links.map (fun e => (some e.1, some e.2))

theorem nodeMapOf_mem_keys_p1 (l : List RawRecord) (x : String) :
    x ∈ mapKeys (nodeMapOf l) ↔ ∃ r ∈ l, jsToString r.id = x := by
  have h := mem_mapKeys_foldl (fun r : RawRecord => jsToString r.id) mkNode l [] x
  simpa [nodeMapOf, mapKeys] using h

theorem nodeMapOf_get_some_p1 (l : List RawRecord) (r : RawRecord) (hr : r ∈ l) :
    ∃ v, mapGet (nodeMapOf l) (jsToString r.id) = some v := by
  apply mapGet_isSome_of_has
  rw [mapHas_iff_mem_keys, nodeMapOf_mem_keys_p1]
  exact ⟨r, hr, rfl⟩

theorem topOf_eq_of_top_level (l : List RawRecord) (r : RawRecord) (hr : r ∈ l)
    (h : parentKeyOf r = none
      ∨ ∃ p, parentKeyOf r = some p ∧ (p = "" ∨ mapHas (nodeMapOf l) p = false)) :
    topOf (nodeMapOf l) r = [jsToString r.id] := by
  rcases nodeMapOf_get_some_p1 l r hr with ⟨v, hv⟩
  unfold topOf
  rw [hv]
  rcases h with h | ⟨p, hp, hdead⟩
  · rw [h]
  · rw [hp]
    rcases hdead with hdead | hdead
    · simp [hdead]
    · simp [hdead]

theorem linkOf_eq_of_live (l : List RawRecord) (r : RawRecord) (p : String)
    (hr : r ∈ l) (hp : parentKeyOf r = some p) (hne : p ≠ "")
    (hhas : mapHas (nodeMapOf l) p = true) :
    linkOf (nodeMapOf l) r = [(p, jsToString r.id)] := by
  rcases nodeMapOf_get_some_p1 l r hr with ⟨v, hv⟩
  unfold linkOf
  rw [hv, hp]
  simp [hne, hhas]

theorem links_eq (l : List RawRecord) :
    (buildTreeFromFlatList l).links = l.flatMap (linkOf (nodeMapOf l)) := by
  have h0 : (buildTreeFromFlatList l).links = (linkPass (nodeMapOf l) l).1 := rfl
  rw [h0, linkPass_eq_p1]

theorem synthChildren_eq (l : List RawRecord) :
    (buildTreeFromFlatList l).synthChildren
      = if l.flatMap (topOf (nodeMapOf l)) = [] ∧ nodeMapOf l ≠ []
        then mapKeys (nodeMapOf l) else l.flatMap (topOf (nodeMapOf l)) := by
  have h0 : (buildTreeFromFlatList l).synthChildren
      = if (linkPass (nodeMapOf l) l).2 = [] ∧ nodeMapOf l ≠ []
        then mapKeys (nodeMapOf l) else (linkPass (nodeMapOf l) l).2 := rfl
  rw [h0, linkPass_eq_p1]

theorem mem_synthChildren_of_topOf (l : List RawRecord) (r : RawRecord) (hr : r ∈ l)
    (h : topOf (nodeMapOf l) r = [jsToString r.id]) :
    jsToString r.id ∈ (buildTreeFromFlatList l).synthChildren := by
  rw [synthChildren_eq]
  have hmem : jsToString r.id ∈ l.flatMap (topOf (nodeMapOf l)) := by
    rw [List.mem_flatMap]
    exact ⟨r, hr, by rw [h]; exact List.mem_singleton.mpr rfl⟩
  have hne : l.flatMap (topOf (nodeMapOf l)) ≠ [] := List.ne_nil_of_mem hmem
  rw [if_neg]
  · exact hmem
  · rintro ⟨hnil, _⟩
    exact hne hnil

theorem mem_links_of_linkOf (l : List RawRecord) (r : RawRecord) (e : String × String)
    (hr : r ∈ l) (h : e ∈ linkOf (nodeMapOf l) r) :
    e ∈ (buildTreeFromFlatList l).links := by
  rw [links_eq, List.mem_flatMap]
  exact ⟨r, hr, h⟩

end Part001

namespace GeminiService

theorem links_of_ok (l : List RawRecord) (g : BuildResult)
    (h : buildTreeFromFlatList l = .ok g) :
    g.links = l.flatMap (linkOf (nodeMapOf l)) := by
  unfold buildTreeFromFlatList at h
  simp only [linkPass_eq] at h
  cases hf : l.findSome? (rootCand (nodeMapOf l)) with
  | some rk =>
    rw [hf] at h
    cases h
    rfl
  | none =>
    rw [hf] at h
    cases hm : nodeMapOf l with
    | nil =>
      rw [hm] at h
      cases h
    | cons e m' =>
      rw [hm] at h
      obtain ⟨k, v⟩ := e
      cases h
      rfl

theorem linkOf_targets_count (m : List (JVal × NodeRec)) (r : RawRecord) (c : JVal) :
    ((linkOf m r).map (fun e => e.2)).count c ≤ List.count c [r.id] := by
  unfold linkOf
  cases mapGet m r.id with
  | none => simp
  | some nd =>
    by_cases ht : jsTruthy (normParent r.parentId)
    · simp only [ht, if_true]
      cases mapGet m (normParent r.parentId) with
      | none => simp
      | some p => simp
    · simp [ht]

theorem flatMap_targets_count (m : List (JVal × NodeRec)) :
    ∀ (l : List RawRecord) (c : JVal),
      ((l.flatMap (linkOf m)).map (fun e => e.2)).count c
        ≤ (l.map (fun r => r.id)).count c := by
  intro l
  induction l with
  | nil => intro c; simp
  | cons r l ih =>
    intro c
    rw [List.flatMap_cons, List.map_append, List.count_append, List.map_cons]
    have h1 := linkOf_targets_count m r c
    have h2 := ih c
    have : List.count c (r.id :: l.map (fun r => r.id))
        = List.count c [r.id] + List.count c (l.map (fun r => r.id)) := by
      simp [List.count_cons]
      omega
    omega

end GeminiService

namespace Part001

theorem linkOf_topOf_count (m : List (String × NodeRec)) (r : RawRecord) (c : String) :
    ((linkOf m r).map (fun e => e.2)).count c + (topOf m r).count c
      ≤ List.count c [jsToString r.id] := by
  unfold linkOf topOf
  cases mapGet m (jsToString r.id) with
  | none => simp
  | some nd =>
    cases parentKeyOf r with
    | none => simp
    | some p =>
      by_cases hc : p ≠ "" ∧ mapHas m p = true
      · simp [hc]
      · simp [hc]

theorem flatMap_children_count (m : List (String × NodeRec)) :
    ∀ (l : List RawRecord) (c : String),
      ((l.flatMap (linkOf m)).map (fun e => e.2)).count c
          + (l.flatMap (topOf m)).count c
        ≤ (l.map (fun r => jsToString r.id)).count c := by
  intro l
  induction l with
  | nil => intro c; simp
  | cons r l ih =>
    intro c
    rw [List.flatMap_cons, List.flatMap_cons, List.map_append, List.count_append,
      List.count_append, List.map_cons]
    have h1 := linkOf_topOf_count m r c
    have h2 := ih c
    have : List.count c (jsToString r.id :: l.map (fun r => jsToString r.id))
        = List.count c [jsToString r.id] + List.count c (l.map (fun r => jsToString r.id)) := by
      simp [List.count_cons]
      omega
    omega

end Part001

/-- A raw record with only id and parentId set (all other fields
absent, as permitted by the generator schema). -/
def mkRaw (i p : JVal) : RawRecord :=
  ⟨i, p, JVal.jundef, JVal.jundef, JVal.jundef, JVal.jundef⟩

/-- The concrete scenario tree of the spec: root → [A → [A1, A2], B]
(payload fields arbitrary, scratch fields initially unset/0). -/
def scenarioTree : MindMapNode :=
  .mk "root" "root" "" "" 1 0 0
    [.mk "A" "A" "" "" 1 0 0
      [.mk "A1" "A1" "" "" 1 0 0 [], .mk "A2" "A2" "" "" 1 0 0 []],
     .mk "B" "B" "" "" 1 0 0 []]

/-- A fixed options value used for concrete instantiations. -/
def someOptions : MindMapOptions :=
  ⟨"smoothstep", FontSize.medium⟩

/-- C1: for every non-empty input list of raw node records, tree
reconstruction returns a tree with exactly one designated root node:
the adopt-first-root variant succeeds and designates a single root
key that is a key of the node map, and the synthetic-root variant
always designates the one synthetic root object. -/
theorem c1_single_root :
    (∀ l : List RawRecord, l ≠ [] →
      ∃ g, GeminiService.buildTreeFromFlatList l = .ok g
        ∧ g.root ∈ mapKeys g.nodes)
    ∧ (∀ l : List RawRecord,
      (Part001.buildTreeFromFlatList l).root = Part001.syntheticRoot) := by
  constructor
  · intro l h
    rcases GeminiService.buildTree_ok_of_ne_nil l h with ⟨g, hok, hnodes, _, hroot⟩
    refine ⟨g, hok, ?_⟩
    rw [hnodes]
    exact hroot
  · intro l
    rfl

/-- Witness for C1 at the single record {id:"1", parentId:null}. -/
theorem c1_single_root_witness :
    ∃ g, GeminiService.buildTreeFromFlatList [mkRaw (JVal.jstr "1") JVal.jnull] = .ok g
      ∧ g.root ∈ mapKeys g.nodes :=
  c1_single_root.1 [mkRaw (JVal.jstr "1") JVal.jnull] (by simp)

/-- C2: the metric pass gives a childless node exactly the BASE
footprint and a node with children `max(BASE, sum of children
footprints + (count - 1) * SPACING)`, in both variants (BASE = 260,
SPACING = 30 for widths; BASE = 140, SPACING = 24 for heights); on
the scenario tree root → [A → [A1, A2], B] with BASE = 140 and
SPACING = 24, A's footprint is 304 and the root's is 468. -/
theorem c2_footprint_formula :
    (∀ (i lb sm q : String) (pg : Int) (w h : ℚ),
      (MindMapGraph.calculateSubtreeSize (.mk i lb sm q pg w h [])).2
        = MindMapGraph.NODE_WIDTH)
    ∧ (∀ (i lb sm q : String) (pg : Int) (w h : ℚ) (c : MindMapNode)
        (cs : List MindMapNode),
      (MindMapGraph.calculateSubtreeSize (.mk i lb sm q pg w h (c :: cs))).2
        = max MindMapGraph.NODE_WIDTH
            (((c :: cs).map (fun x => (MindMapGraph.calculateSubtreeSize x).2)).sum
              + (((c :: cs).length : ℚ) - 1) * MindMapGraph.X_SPACING))
    ∧ (∀ (i lb sm q : String) (pg : Int) (w h : ℚ),
      (MindMapGraphLTR.calculateSubtreeHeight (.mk i lb sm q pg w h [])).2
        = MindMapGraphLTR.NODE_HEIGHT)
    ∧ (∀ (i lb sm q : String) (pg : Int) (w h : ℚ) (c : MindMapNode)
        (cs : List MindMapNode),
      (MindMapGraphLTR.calculateSubtreeHeight (.mk i lb sm q pg w h (c :: cs))).2
        = max MindMapGraphLTR.NODE_HEIGHT
            (((c :: cs).map (fun x => (MindMapGraphLTR.calculateSubtreeHeight x).2)).sum
              + (((c :: cs).length : ℚ) - 1) * MindMapGraphLTR.NODE_SPACING))
    ∧ (MindMapGraphLTR.calculateSubtreeHeight scenarioTree).2 = 468
    ∧ ((MindMapGraphLTR.annot scenarioTree).children.map MindMapNode.height)
        = [304, 140] := by
  refine ⟨?_, ?_, ?_, ?_, ?_, ?_⟩
  · intro i lb sm q pg w h
    rfl
  · intro i lb sm q pg w h c cs
    rw [show (MindMapGraph.calculateSubtreeSize (.mk i lb sm q pg w h (c :: cs))).2
        = max MindMapGraph.NODE_WIDTH (MindMapGraph.sizeChildren (c :: cs)).2 from rfl]
    rw [MindMapGraph.sizeChildren_snd]
  · intro i lb sm q pg w h
    rfl
  · intro i lb sm q pg w h c cs
    rw [show (MindMapGraphLTR.calculateSubtreeHeight (.mk i lb sm q pg w h (c :: cs))).2
        = max MindMapGraphLTR.NODE_HEIGHT (MindMapGraphLTR.heightChildren (c :: cs)).2 from rfl]
    rw [MindMapGraphLTR.heightChildren_snd]
  · simp [scenarioTree, MindMapGraphLTR.calculateSubtreeHeight, MindMapGraphLTR.heightChildren,
      MindMapGraphLTR.NODE_HEIGHT, MindMapGraphLTR.NODE_SPACING]
    norm_num
  · simp [scenarioTree, MindMapGraphLTR.annot, MindMapGraphLTR.calculateSubtreeHeight,
      MindMapGraphLTR.heightChildren, MindMapGraphLTR.NODE_HEIGHT, MindMapGraphLTR.NODE_SPACING,
      MindMapNode.children_mk, MindMapNode.height_mk]
    norm_num

/-- C3: after the metric pass, the spans `[cursor, cursor + footprint]`
the position assigner allocates to the children of a node never
overlap, whatever the starting cursor (hence in particular for the
cursors the recursion actually uses); stated for both variants.
Quantifying over every tree `t` covers every sibling group of every
fully annotated tree, since the children of an annotated tree are the
annotated children (`annot_children`). -/
theorem c3_sibling_spans_disjoint :
    (∀ (t : MindMapNode) (cx : ℚ),
      List.Pairwise (fun a b => a.2 < b.1)
        (MindMapGraph.childAllocations cx (MindMapGraph.annot t).children))
    ∧ (∀ (t : MindMapNode) (cy : ℚ),
      List.Pairwise (fun a b => a.2 < b.1)
        (MindMapGraphLTR.childAllocations cy (MindMapGraphLTR.annot t).children)) := by
  constructor
  · intro t cx
    apply MindMapGraph.childAllocations_pairwise
    intro c hc
    rw [MindMapGraph.annot_children] at hc
    rcases List.mem_map.mp hc with ⟨c0, _, rfl⟩
    have h1 := MindMapGraph.annot_width_ge c0
    have h2 : (0 : ℚ) ≤ MindMapGraph.NODE_WIDTH := by norm_num [MindMapGraph.NODE_WIDTH]
    linarith
  · intro t cy
    apply MindMapGraphLTR.childAllocations_pairwise_ltr
    intro c hc
    rw [MindMapGraphLTR.annot_children_ltr] at hc
    rcases List.mem_map.mp hc with ⟨c0, _, rfl⟩
    have h1 := MindMapGraphLTR.annot_height_ge c0
    have h2 : (0 : ℚ) ≤ MindMapGraphLTR.NODE_HEIGHT := by
      norm_num [MindMapGraphLTR.NODE_HEIGHT]
    linarith

/-- C4: in both variants, the position the assigner gives an internal
node centers its fixed visual box on the midpoint of its children's
combined span (positions are box anchors, so the anchor plus half the
box dimension equals the span midpoint); the node record emitted for
the subtree root is the head of the output node list.  Quantifying
over every tree covers every internal node of every annotated tree,
since annotated subtrees are annotations of subtrees
(`annot_children`). -/
theorem c4_centering :
    (∀ (t : MindMapNode) (x y : ℚ) (opts : MindMapOptions) (c : MindMapNode)
        (cs : List MindMapNode),
      (MindMapGraph.annot t).children = c :: cs →
      ∃ fn rest a,
        (MindMapGraph.assignPositions (MindMapGraph.annot t) x y opts none).1 = fn :: rest
        ∧ (MindMapGraph.childAllocations x (c :: cs)).getLast? = some a
        ∧ fn.x + MindMapGraph.NODE_WIDTH / 2 = (x + a.2) / 2)
    ∧ (∀ (t : MindMapNode) (x y : ℚ) (opts : MindMapOptions) (c : MindMapNode)
        (cs : List MindMapNode),
      (MindMapGraphLTR.annot t).children = c :: cs →
      ∃ fn rest a,
        (MindMapGraphLTR.assignPositions (MindMapGraphLTR.annot t) x y opts none).1
            = fn :: rest
        ∧ (MindMapGraphLTR.childAllocations
            (y + ((MindMapGraphLTR.annot t).height
                  - MindMapGraphLTR.childrenStackHeight (c :: cs)) / 2)
            (c :: cs)).getLast? = some a
        ∧ fn.y + MindMapGraphLTR.NODE_HEIGHT / 2
            = ((y + ((MindMapGraphLTR.annot t).height
                  - MindMapGraphLTR.childrenStackHeight (c :: cs)) / 2) + a.2) / 2) := by
  constructor
  · intro t x y opts c cs hch
    match t with
    | .mk i lb sm q pg w0 h0 tcs =>
      cases tcs with
      | nil =>
        exfalso
        rw [MindMapGraph.annot_children] at hch
        simp [MindMapNode.children_mk] at hch
      | cons c0 cs0 =>
        have hannot : MindMapGraph.annot (.mk i lb sm q pg w0 h0 (c0 :: cs0))
            = .mk i lb sm q pg
                (max MindMapGraph.NODE_WIDTH (MindMapGraph.sizeChildren (c0 :: cs0)).2) h0
                (MindMapGraph.sizeChildren (c0 :: cs0)).1 := rfl
        have hCS : (MindMapGraph.sizeChildren (c0 :: cs0)).1 = c :: cs := by
          rw [hannot] at hch
          exact hch
        have hstack : MindMapGraph.stackWidth (c :: cs)
            = (MindMapGraph.sizeChildren (c0 :: cs0)).2 := by
          rw [← hCS, MindMapGraph.sizeChildren_fst, MindMapGraph.stackWidth_annot]
        have hge : MindMapGraph.NODE_WIDTH ≤ (MindMapGraph.sizeChildren (c0 :: cs0)).2 :=
          MindMapGraph.sizeChildren_snd_ge c0 cs0
        rcases MindMapGraph.childAllocations_getLast c cs x with ⟨a, hlast, hend⟩
        rw [hannot]
        refine ⟨_, _, a, rfl, hlast, ?_⟩
        show (x + max MindMapGraph.NODE_WIDTH (MindMapGraph.sizeChildren (c0 :: cs0)).2 / 2
            - MindMapGraph.NODE_WIDTH / 2) + MindMapGraph.NODE_WIDTH / 2 = (x + a.2) / 2
        rw [hend, hstack, max_eq_right hge]
        ring
  · intro t x y opts c cs hch
    match t with
    | .mk i lb sm q pg w0 h0 tcs =>
      cases tcs with
      | nil =>
        exfalso
        rw [MindMapGraphLTR.annot_children_ltr] at hch
        simp [MindMapNode.children_mk] at hch
      | cons c0 cs0 =>
        have hannot : MindMapGraphLTR.annot (.mk i lb sm q pg w0 h0 (c0 :: cs0))
            = .mk i lb sm q pg w0
                (max MindMapGraphLTR.NODE_HEIGHT (MindMapGraphLTR.heightChildren (c0 :: cs0)).2)
                (MindMapGraphLTR.heightChildren (c0 :: cs0)).1 := rfl
        have hCS : (MindMapGraphLTR.heightChildren (c0 :: cs0)).1 = c :: cs := by
          rw [hannot] at hch
          exact hch
        have hannot2 : MindMapGraphLTR.annot (.mk i lb sm q pg w0 h0 (c0 :: cs0))
            = .mk i lb sm q pg w0
                (max MindMapGraphLTR.NODE_HEIGHT (MindMapGraphLTR.heightChildren (c0 :: cs0)).2)
                (c :: cs) := by
          rw [hannot, hCS]
        rcases MindMapGraphLTR.childAllocations_getLast_ltr c cs
          (y + ((max MindMapGraphLTR.NODE_HEIGHT (MindMapGraphLTR.heightChildren (c0 :: cs0)).2)
            - MindMapGraphLTR.childrenStackHeight (c :: cs)) / 2) with ⟨a, hlast, hend⟩
        rw [hannot2]
        refine ⟨_, _, a, rfl, hlast, ?_⟩
        show (y + max MindMapGraphLTR.NODE_HEIGHT (MindMapGraphLTR.heightChildren (c0 :: cs0)).2 / 2
            - MindMapGraphLTR.NODE_HEIGHT / 2) + MindMapGraphLTR.NODE_HEIGHT / 2
          = ((y + ((max MindMapGraphLTR.NODE_HEIGHT (MindMapGraphLTR.heightChildren (c0 :: cs0)).2)
              - MindMapGraphLTR.childrenStackHeight (c :: cs)) / 2) + a.2) / 2
        rw [hend]
        ring

/-- Witness for C4 at the annotated scenario tree (left-to-right
variant): A's annotated subtree (height 304) and B's (height 140). -/
theorem c4_centering_witness :
    ∃ fn rest a,
      (MindMapGraphLTR.assignPositions (MindMapGraphLTR.annot scenarioTree)
          0 0 someOptions none).1 = fn :: rest
      ∧ (MindMapGraphLTR.childAllocations
          (0 + ((MindMapGraphLTR.annot scenarioTree).height
                - MindMapGraphLTR.childrenStackHeight
                    ((MindMapNode.mk "A" "A" "" "" 1 0 304
                        [.mk "A1" "A1" "" "" 1 0 140 [], .mk "A2" "A2" "" "" 1 0 140 []])
                      :: [MindMapNode.mk "B" "B" "" "" 1 0 140 []])) / 2)
          ((MindMapNode.mk "A" "A" "" "" 1 0 304
              [.mk "A1" "A1" "" "" 1 0 140 [], .mk "A2" "A2" "" "" 1 0 140 []])
            :: [MindMapNode.mk "B" "B" "" "" 1 0 140 []])).getLast? = some a
      ∧ fn.y + MindMapGraphLTR.NODE_HEIGHT / 2
          = ((0 + ((MindMapGraphLTR.annot scenarioTree).height
                - MindMapGraphLTR.childrenStackHeight
                    ((MindMapNode.mk "A" "A" "" "" 1 0 304
                        [.mk "A1" "A1" "" "" 1 0 140 [], .mk "A2" "A2" "" "" 1 0 140 []])
                      :: [MindMapNode.mk "B" "B" "" "" 1 0 140 []])) / 2) + a.2) / 2 :=
  c4_centering.2 scenarioTree 0 0 someOptions
    (MindMapNode.mk "A" "A" "" "" 1 0 304
      [.mk "A1" "A1" "" "" 1 0 140 [], .mk "A2" "A2" "" "" 1 0 140 []])
    [MindMapNode.mk "B" "B" "" "" 1 0 140 []]
    (by norm_num [scenarioTree, MindMapGraphLTR.annot, MindMapGraphLTR.calculateSubtreeHeight,
      MindMapGraphLTR.heightChildren, MindMapGraphLTR.NODE_HEIGHT, MindMapGraphLTR.NODE_SPACING,
      MindMapNode.children_mk])

/-- C5: for every tree, the position assigner emits exactly
(node count - 1) edges, the edge targets are precisely the non-root
nodes in preorder, and (when ids are unique, as reconstruction
guarantees) every non-root node id is the target of exactly one
edge; stated for both variants. -/
theorem c5_edge_completeness :
    ∀ (t : MindMapNode) (x y : ℚ) (opts : MindMapOptions),
      (((MindMapGraph.assignPositions t x y opts none).2).length = t.size - 1
        ∧ ((MindMapGraph.assignPositions t x y opts none).2).map (fun e => e.target)
            = t.preorder.tail
        ∧ (t.preorder.Nodup → ∀ nid ∈ t.preorder.tail,
            (((MindMapGraph.assignPositions t x y opts none).2).map
                (fun e => e.target)).count nid = 1))
      ∧ (((MindMapGraphLTR.assignPositions t x y opts none).2).length = t.size - 1
        ∧ ((MindMapGraphLTR.assignPositions t x y opts none).2).map (fun e => e.target)
            = t.preorder.tail
        ∧ (t.preorder.Nodup → ∀ nid ∈ t.preorder.tail,
            (((MindMapGraphLTR.assignPositions t x y opts none).2).map
                (fun e => e.target)).count nid = 1)) := by
  intro t x y opts
  have htail : t.preorder.Nodup → t.preorder.tail.Nodup := by
    match t with
    | .mk i lb sm q pg w h cs =>
      intro hnd
      rw [show (MindMapNode.mk i lb sm q pg w h cs).preorder
          = i :: MindMapNode.preorderList cs from rfl] at hnd ⊢
      exact hnd.of_cons
  refine ⟨⟨MindMapGraph.assign_edges_length_root t x y opts,
      MindMapGraph.assign_edge_targets_root t x y opts, ?_⟩,
    MindMapGraphLTR.assign_edges_length_root_ltr t x y opts,
    MindMapGraphLTR.assign_edge_targets_root_ltr t x y opts, ?_⟩
  · intro hnd nid hmem
    rw [MindMapGraph.assign_edge_targets_root]
    exact List.count_eq_one_of_mem (htail hnd) hmem
  · intro hnd nid hmem
    rw [MindMapGraphLTR.assign_edge_targets_root_ltr]
    exact List.count_eq_one_of_mem (htail hnd) hmem

/-- Witness for C5 at the scenario tree: node "A" is the target of
exactly one emitted edge. -/
theorem c5_edge_completeness_witness :
    (((MindMapGraph.assignPositions scenarioTree 0 0 someOptions none).2).map
      (fun e => e.target)).count "A" = 1 :=
  (c5_edge_completeness scenarioTree 0 0 someOptions).1.2.2 (by decide) "A" (by decide)

/-- The claim's one-record input {id:"1", parentId:null, label:"Intro"}. -/
def introRec : RawRecord :=
  ⟨JVal.jstr "1", JVal.jnull, JVal.jstr "Intro", JVal.jundef, JVal.jundef, JVal.jundef⟩

/-- The orphan-recovery input: a's parent "x" is absent, b is parentless. -/
def orphanInput : List RawRecord :=
  [mkRaw (JVal.jstr "a") (JVal.jstr "x"), mkRaw (JVal.jstr "b") JVal.jnull]

/-- What the adopt-first-root variant actually produces on
`orphanInput`: node "a" is in the map but linked nowhere. -/
def orphanResult : GeminiService.BuildResult :=
  ⟨[(JVal.jstr "a", ⟨JVal.jstr "a", JVal.jstr "Untitled", JVal.jstr "", JVal.jstr "", 1⟩),
    (JVal.jstr "b", ⟨JVal.jstr "b", JVal.jstr "Untitled", JVal.jstr "", JVal.jstr "", 1⟩)],
   [], JVal.jstr "b"⟩

/-- An input whose first record has the number 1 (not the string "1")
as id, and whose second record cites parent "1" as a string. -/
def coercionInput : List RawRecord :=
  [mkRaw (JVal.jnum 1) JVal.jnull, mkRaw (JVal.jstr "c") (JVal.jstr "1")]

/-- What the adopt-first-root variant produces on `coercionInput`:
the map key is the raw number 1, and the string reference "1" does
not resolve, so no link is created. -/
def coercionResult : GeminiService.BuildResult :=
  ⟨[(JVal.jnum 1, ⟨JVal.jnum 1, JVal.jstr "Untitled", JVal.jstr "", JVal.jstr "", 1⟩),
    (JVal.jstr "c", ⟨JVal.jstr "c", JVal.jstr "Untitled", JVal.jstr "", JVal.jstr "", 1⟩)],
   [], JVal.jnum 1⟩

/-- The self-parenting input [{id:"a", parentId:"a"}]. -/
def selfParentInput : List RawRecord :=
  [mkRaw (JVal.jstr "a") (JVal.jstr "a")]

/-- What the adopt-first-root variant produces on `selfParentInput`:
node "a" is pushed into its own children array and then adopted as
the fallback root. -/
def selfParentResult : GeminiService.BuildResult :=
  ⟨[(JVal.jstr "a", ⟨JVal.jstr "a", JVal.jstr "Untitled", JVal.jstr "", JVal.jstr "", 1⟩)],
   [(JVal.jstr "a", JVal.jstr "a")], JVal.jstr "a"⟩

/-- An input containing two records with the same id "d". -/
def dupIdInput : List RawRecord :=
  [mkRaw (JVal.jstr "r") JVal.jnull,
   mkRaw (JVal.jstr "d") (JVal.jstr "r"),
   mkRaw (JVal.jstr "d") (JVal.jstr "r")]

/-- What the adopt-first-root variant produces on `dupIdInput`: the
single map node "d" is pushed twice into "r"'s children array. -/
def dupIdResult : GeminiService.BuildResult :=
  ⟨[(JVal.jstr "r", ⟨JVal.jstr "r", JVal.jstr "Untitled", JVal.jstr "", JVal.jstr "", 1⟩),
    (JVal.jstr "d", ⟨JVal.jstr "d", JVal.jstr "Untitled", JVal.jstr "", JVal.jstr "", 1⟩)],
   [(JVal.jstr "r", JVal.jstr "d"), (JVal.jstr "r", JVal.jstr "d")], JVal.jstr "r"⟩

/-- A well-formed acyclic two-record input: p is the root, c its child. -/
def acyclicInput : List RawRecord :=
  [mkRaw (JVal.jstr "p") JVal.jnull, mkRaw (JVal.jstr "c") (JVal.jstr "p")]

/-- The adopt-first-root reconstruction of `acyclicInput`. -/
def acyclicResult : GeminiService.BuildResult :=
  ⟨[(JVal.jstr "p", ⟨JVal.jstr "p", JVal.jstr "Untitled", JVal.jstr "", JVal.jstr "", 1⟩),
    (JVal.jstr "c", ⟨JVal.jstr "c", JVal.jstr "Untitled", JVal.jstr "", JVal.jstr "", 1⟩)],
   [(JVal.jstr "p", JVal.jstr "c")], JVal.jstr "p"⟩

/-- C6 counterexample: the synthetic-root variant of
`buildTreeFromFlatList` (src/unnamed/part_001) is total — given the
empty list it does NOT raise the empty-result condition; it returns
the synthetic-root-only tree (empty node map, no links, no
children), refuting the claimed "if and only if". -/
theorem c6_counterexample_empty_input_succeeds :
    Part001.buildTreeFromFlatList ([] : List RawRecord)
      = ⟨[], [], [], Part001.syntheticRoot⟩ := rfl

/-- C6 amended: the adopt-first-root variant
(src/services/geminiService.ts) fails with the empty-result error iff
the input is empty (and on the single record {id:"1", parentId:null,
label:"Intro"} succeeds with root "1"); the synthetic-root variant
never fails: on [] it returns the synthetic root with no children,
and on that single record it attaches "1" under the synthetic root. -/
theorem c6_amended_empty_failure :
    (GeminiService.buildTreeFromFlatList ([] : List RawRecord)
        = .error "The mind map returned by AI was empty.")
    ∧ (∀ l : List RawRecord, l ≠ [] →
        ∃ g, GeminiService.buildTreeFromFlatList l = .ok g)
    ∧ ((Part001.buildTreeFromFlatList ([] : List RawRecord)).nodes = []
        ∧ (Part001.buildTreeFromFlatList ([] : List RawRecord)).synthChildren = [])
    ∧ (GeminiService.buildTreeFromFlatList [introRec]
        = .ok ⟨[(JVal.jstr "1",
            ⟨JVal.jstr "1", JVal.jstr "Intro", JVal.jstr "", JVal.jstr "", 1⟩)],
          [], JVal.jstr "1"⟩)
    ∧ (Part001.buildTreeFromFlatList [introRec]).synthChildren = ["1"] := by
  refine ⟨rfl, ?_, ⟨rfl, rfl⟩, rfl, rfl⟩
  intro l h
  rcases GeminiService.buildTree_ok_of_ne_nil l h with ⟨g, hok, _⟩
  exact ⟨g, hok⟩

/-- Witness for the amended C6 at the claim's single record. -/
theorem c6_amended_witness :
    ∃ g, GeminiService.buildTreeFromFlatList [introRec] = .ok g :=
  c6_amended_empty_failure.2.1 [introRec] (by simp)

/-- C7 counterexample: in the adopt-first-root variant
(src/services/geminiService.ts), the dangling record {id:"a",
parentId:"x"} is DROPPED: it is neither linked under any parent nor a
root candidate, so "a" is not reachable from the root "b". -/
theorem c7_counterexample_orphan_dropped :
    GeminiService.buildTreeFromFlatList orphanInput = .ok orphanResult
    ∧ orphanResult.root = JVal.jstr "b"
    ∧ JVal.jstr "a" ∈ mapKeys orphanResult.nodes
    ∧ ¬ Reaches orphanResult.links orphanResult.root (JVal.jstr "a") := by
  refine ⟨rfl, rfl, by decide, ?_⟩
  intro h
  cases h with
  | child hm => simp [linkChildren, orphanResult] at hm
  | step hm _ => simp [linkChildren, orphanResult] at hm

/-- C7 amended: in the synthetic-root variant (src/unnamed/part_001),
a record whose parentId is null-like or a dangling/empty reference is
attached to the synthetic root and is reachable from it in one step;
in the adopt-first-root variant such a dangling record is dropped
(see the counterexample). -/
theorem c7_amended_orphan_recovery :
    ∀ (l : List RawRecord) (r : RawRecord), r ∈ l →
      (Part001.parentKeyOf r = none
        ∨ ∃ p, Part001.parentKeyOf r = some p
            ∧ (p = "" ∨ mapHas (Part001.nodeMapOf l) p = false)) →
      jsToString r.id ∈ (Part001.buildTreeFromFlatList l).synthChildren
      ∧ Reaches (Part001.allLinks (Part001.buildTreeFromFlatList l)) none
          (some (jsToString r.id)) := by
  intro l r hr hcond
  have htop := Part001.topOf_eq_of_top_level l r hr hcond
  have hmem := Part001.mem_synthChildren_of_topOf l r hr htop
  refine ⟨hmem, ?_⟩
  apply Reaches.child
  rw [mem_linkChildren_iff]
  unfold Part001.allLinks
  rw [List.mem_append]
  left
  rw [List.mem_map]
  exact ⟨jsToString r.id, hmem, rfl⟩

/-- Witness for the amended C7 at the claim's orphan input. -/
theorem c7_amended_witness :
    jsToString (mkRaw (JVal.jstr "a") (JVal.jstr "x")).id
        ∈ (Part001.buildTreeFromFlatList orphanInput).synthChildren
    ∧ Reaches (Part001.allLinks (Part001.buildTreeFromFlatList orphanInput)) none
        (some (jsToString (mkRaw (JVal.jstr "a") (JVal.jstr "x")).id)) :=
  c7_amended_orphan_recovery orphanInput (mkRaw (JVal.jstr "a") (JVal.jstr "x"))
    (by decide)
    (Or.inr ⟨"x", rfl, Or.inr (by decide)⟩)

/-- C8 counterexample: the adopt-first-root variant
(src/services/geminiService.ts) does NOT coerce ids to string keys:
on `coercionInput` the map key is the raw number 1, the string
parent reference "1" does not resolve, and no link is created —
while the synthetic-root variant, which does coerce with
String(...), links "c" under "1". -/
theorem c8_counterexample_no_string_coercion :
    GeminiService.buildTreeFromFlatList coercionInput = .ok coercionResult
    ∧ mapKeys coercionResult.nodes = [JVal.jnum 1, JVal.jstr "c"]
    ∧ coercionResult.links = []
    ∧ (Part001.buildTreeFromFlatList coercionInput).links = [("1", "c")] :=
  ⟨rfl, rfl, rfl, rfl⟩

/-- C8 amended: in the synthetic-root variant every id is coerced via
String(...) into the map key, parents that are null, undefined or
the literal "null" declare a top-level node, an empty-string parent
is likewise treated as top-level, and any other parent value is
String(...)-coerced and, when it names a live non-empty key, yields
the corresponding link; in the adopt-first-root variant the map keys
are the raw id values, uncoerced. -/
theorem c8_amended_normalization :
    (∀ (l : List RawRecord) (x : String),
      x ∈ mapKeys (Part001.nodeMapOf l) ↔ ∃ r ∈ l, jsToString r.id = x)
    ∧ (∀ (l : List RawRecord) (x : JVal),
      x ∈ mapKeys (GeminiService.nodeMapOf l) ↔ ∃ r ∈ l, r.id = x)
    ∧ (∀ (l : List RawRecord) (r : RawRecord), r ∈ l →
      (r.parentId = JVal.jstr "null" ∨ r.parentId = JVal.jnull
        ∨ r.parentId = JVal.jundef) →
      jsToString r.id ∈ (Part001.buildTreeFromFlatList l).synthChildren)
    ∧ (∀ (l : List RawRecord) (r : RawRecord), r ∈ l →
      r.parentId = JVal.jstr "" →
      jsToString r.id ∈ (Part001.buildTreeFromFlatList l).synthChildren)
    ∧ (∀ (l : List RawRecord) (r : RawRecord) (p : String), r ∈ l →
      Part001.parentKeyOf r = some p → p ≠ "" →
      mapHas (Part001.nodeMapOf l) p = true →
      (p, jsToString r.id) ∈ (Part001.buildTreeFromFlatList l).links) := by
  refine ⟨Part001.nodeMapOf_mem_keys_p1, GeminiService.nodeMapOf_mem_keys, ?_, ?_, ?_⟩
  · intro l r hr hnull
    apply Part001.mem_synthChildren_of_topOf l r hr
    apply Part001.topOf_eq_of_top_level l r hr
    left
    unfold Part001.parentKeyOf
    rcases hnull with h | h | h <;> simp [h]
  · intro l r hr hempty
    apply Part001.mem_synthChildren_of_topOf l r hr
    apply Part001.topOf_eq_of_top_level l r hr
    right
    refine ⟨"", ?_, Or.inl rfl⟩
    unfold Part001.parentKeyOf
    simp [hempty, jsToString]
  · intro l r p hr hp hne hhas
    have hlive := Part001.linkOf_eq_of_live l r p hr hp hne hhas
    apply Part001.mem_links_of_linkOf l r _ hr
    rw [hlive]
    exact List.mem_singleton.mpr rfl

/-- Witness for the amended C8: a record whose parentId is the
literal string "null" ends up under the synthetic root. -/
theorem c8_amended_witness :
    jsToString (mkRaw (JVal.jstr "n") (JVal.jstr "null")).id
      ∈ (Part001.buildTreeFromFlatList
          [mkRaw (JVal.jstr "n") (JVal.jstr "null")]).synthChildren :=
  c8_amended_normalization.2.2.1 [mkRaw (JVal.jstr "n") (JVal.jstr "null")]
    (mkRaw (JVal.jstr "n") (JVal.jstr "null")) (by decide) (Or.inl rfl)

/-- C9 counterexample: a record whose parentId equals its own id DOES
make a node its own ancestor — in the adopt-first-root variant node
"a" is pushed into its own children array and adopted as the fallback
root, and in the synthetic-root variant the same self-link exists,
so "a" reaches itself in both reconstructed trees. -/
theorem c9_counterexample_self_parent_cycle :
    GeminiService.buildTreeFromFlatList selfParentInput = .ok selfParentResult
    ∧ selfParentResult.root = JVal.jstr "a"
    ∧ Reaches selfParentResult.links (JVal.jstr "a") (JVal.jstr "a")
    ∧ Reaches (Part001.allLinks (Part001.buildTreeFromFlatList selfParentInput))
        (some "a") (some "a") := by
  refine ⟨rfl, rfl, ?_, ?_⟩
  · exact Reaches.child (by decide)
  · exact Reaches.child (by decide)

/-- Lift a rank on string keys to the key space of the synthetic-root
tree (the synthetic root itself sits strictly below every map node). -/
def optionRank (rank : String → ℕ) : Option String → ℕ
  | none => 0
  | some s => rank s + 1

/-- C9 amended: if the parent references recorded in the input admit
a rank function that strictly increases from parent to child (i.e.
the parent-reference relation is acyclic — which excludes
self-parenting), then no node of the reconstructed tree is its own
ancestor, in either variant. -/
theorem c9_amended_no_cycles :
    (∀ (l : List RawRecord) (rank : JVal → ℕ),
      (∀ r ∈ l, ∀ e ∈ GeminiService.linkOf (GeminiService.nodeMapOf l) r,
        rank e.1 < rank e.2) →
      ∀ g, GeminiService.buildTreeFromFlatList l = .ok g →
      ∀ k, ¬ Reaches g.links k k)
    ∧ (∀ (l : List RawRecord) (rank : String → ℕ),
      (∀ r ∈ l, ∀ e ∈ Part001.linkOf (Part001.nodeMapOf l) r,
        rank e.1 < rank e.2) →
      ∀ k, ¬ Reaches (Part001.allLinks (Part001.buildTreeFromFlatList l)) k k) := by
  constructor
  · intro l rank hr g hok k
    have hlinks := GeminiService.links_of_ok l g hok
    have hall : ∀ e ∈ g.links, rank e.1 < rank e.2 := by
      intro e he
      rw [hlinks] at he
      rcases List.mem_flatMap.mp he with ⟨r, hrl, hre⟩
      exact hr r hrl e hre
    exact Reaches.irrefl_of_rank hall k
  · intro l rank hr k
    have hall : ∀ e ∈ Part001.allLinks (Part001.buildTreeFromFlatList l),
        optionRank rank e.1 < optionRank rank e.2 := by
      intro e he
      unfold Part001.allLinks at he
      rw [List.mem_append] at he
      rcases he with he | he
      · rcases List.mem_map.mp he with ⟨c, _, rfl⟩
        simp [optionRank]
      · rcases List.mem_map.mp he with ⟨e0, he0, rfl⟩
        rw [Part001.links_eq] at he0
        rcases List.mem_flatMap.mp he0 with ⟨r, hrl, hre⟩
        have := hr r hrl e0 hre
        simp only [optionRank]
        omega
    exact Reaches.irrefl_of_rank hall k

/-- Witness for the amended C9 at the acyclic two-record input. -/
theorem c9_amended_witness :
    (¬ Reaches acyclicResult.links (JVal.jstr "c") (JVal.jstr "c"))
    ∧ (¬ Reaches (Part001.allLinks (Part001.buildTreeFromFlatList acyclicInput))
        (some "c") (some "c")) :=
  ⟨c9_amended_no_cycles.1 acyclicInput
      (fun k => if k = JVal.jstr "p" then 0 else 1) (by decide)
      acyclicResult rfl (JVal.jstr "c"),
   c9_amended_no_cycles.2 acyclicInput
      (fun s => if s = "p" then 0 else 1) (by decide) (some "c")⟩

/-- C10 counterexample: with two records sharing the id "d", the
(single) map node "d" is pushed twice into the children array of
"r" — the same node appears twice in one children list. -/
theorem c10_counterexample_duplicate_id :
    GeminiService.buildTreeFromFlatList dupIdInput = .ok dupIdResult
    ∧ linkChildren dupIdResult.links (JVal.jstr "r")
        = [JVal.jstr "d", JVal.jstr "d"] :=
  ⟨rfl, rfl⟩

/-- C10 amended: when the input's (coerced) ids are pairwise
distinct, each node occurs at most once across all children arrays:
in the adopt-first-root variant every key is the target of at most
one link, and in the synthetic-root variant (in the non-fallback
case, i.e. when some record is top-level) the link targets and
synthetic-root children together contain each key at most once — so
no node sits under two parents or twice in the same children list. -/
theorem c10_amended_unique_membership :
    (∀ l : List RawRecord, (l.map (fun r => r.id)).Nodup →
      ∀ g, GeminiService.buildTreeFromFlatList l = .ok g →
      ∀ c, (g.links.map (fun e => e.2)).count c ≤ 1)
    ∧ (∀ l : List RawRecord, (l.map (fun r => jsToString r.id)).Nodup →
      l.flatMap (Part001.topOf (Part001.nodeMapOf l)) ≠ [] →
      ∀ c, ((Part001.buildTreeFromFlatList l).links.map (fun e => e.2)).count c
          + ((Part001.buildTreeFromFlatList l).synthChildren).count c ≤ 1) := by
  constructor
  · intro l hnd g hok c
    rw [GeminiService.links_of_ok l g hok]
    have h1 := GeminiService.flatMap_targets_count (GeminiService.nodeMapOf l) l c
    have h2 := List.nodup_iff_count_le_one.mp hnd c
    omega
  · intro l hnd hne c
    rw [Part001.links_eq, Part001.synthChildren_eq,
      if_neg (by rintro ⟨h1, _⟩; exact hne h1)]
    have h1 := Part001.flatMap_children_count (Part001.nodeMapOf l) l c
    have h2 := List.nodup_iff_count_le_one.mp hnd c
    omega

/-- Witness for the amended C10 at the acyclic two-record input. -/
theorem c10_amended_witness :
    (acyclicResult.links.map (fun e => e.2)).count (JVal.jstr "c") ≤ 1
    ∧ ((Part001.buildTreeFromFlatList acyclicInput).links.map
        (fun e => e.2)).count "c"
      + ((Part001.buildTreeFromFlatList acyclicInput).synthChildren).count "c" ≤ 1 :=
  ⟨c10_amended_unique_membership.1 acyclicInput (by decide) acyclicResult rfl
      (JVal.jstr "c"),
   c10_amended_unique_membership.2 acyclicInput (by decide) (by decide) "c"⟩
